import Mathlib

/-!
# Verification of the ParsedToPlot library core

Shallow embedding of the core of the `parsed_to_plot` Rust crate:
the CoNLL (dependency) token parser and serializer, the bracket
constituency-tree parser and serializer, the generic DFS walk engine,
the dependency arc-height computation, and the subtree-children counter.

Rust `String` values are modeled as `List Char`; Rust `Vec` as `List`;
fallible operations (`Result`, `panic!`-free modeling of panics and
failed `assert!`s) as `Except String`/`Option`.  The numeric `id`/`head`
fields of a token are stored as `f32` in the source and are used as
vector indices (`as usize`); they are modeled as `Nat`, which agrees
exactly with `f32` parsing/printing on the unsigned decimal integer
numerals the library manipulates (integers below `2^24` are exact in
`f32` and Rust prints them back without a decimal point).
-/

namespace PTP

/-- Rust strings, modeled as their character lists. -/
abbrev Str := List Char

/-- Coerce a Lean string literal to the `Str` model. -/
def str (s : String) : Str := s.data

/-! ## Tab splitting and joining

`line.split("\t")` from `String2Conll::build` and the `join("\t")` from
`Conll2String::init_walk`. -/

/-- Rust `line.split("\t").collect::<Vec<_>>()`: split at every tab. -/
def splitTab : Str → List Str
  | [] => [[]]
  | c :: cs =>
    if c = '\t' then [] :: splitTab cs
    else
      match splitTab cs with
      | [] => [[c]]
      | f :: rest => (c :: f) :: rest

/-- Rust `fields.join("\t")`. -/
def joinTab : List Str → Str
  | [] => []
  | [f] => f
  | f :: rest => f ++ '\t' :: joinTab rest

theorem splitTab_ne_nil (s : Str) : splitTab s ≠ [] := by
  cases s with
  | nil => simp [splitTab]
  | cons c cs =>
    simp only [splitTab]
    split
    · simp
    · cases h : splitTab cs <;> simp

/-- Joining the tab-split fields of a line restores the line. -/
theorem joinTab_splitTab (s : Str) : joinTab (splitTab s) = s := by
  induction s with
  | nil => rfl
  | cons c cs ih =>
    simp only [splitTab]
    split
    · rename_i h
      subst h
      cases hcs : splitTab cs with
      | nil => exact absurd hcs (splitTab_ne_nil cs)
      | cons f rest =>
        rw [hcs] at ih
        simpa [joinTab] using ih
    · cases hcs : splitTab cs with
      | nil => exact absurd hcs (splitTab_ne_nil cs)
      | cons f rest =>
        cases rest with
        | nil => simp only [joinTab]; rw [hcs] at ih; simpa [joinTab] using ih
        | cons g rest' =>
          simp only [joinTab]
          rw [hcs] at ih
          simpa [joinTab] using ih

/-! ## Numeric fields

The source parses `id`/`head` with `str::parse::<f32>()` and re-renders
them with `f32::to_string()`.  Success of `parse::<f32>` is purely
syntactic — the string must match the documented `f32::from_str`
grammar `Sign? ('inf'|'infinity'|'nan'|Number)`; in-grammar overflow
rounds to infinity instead of failing — and is modeled exactly by
`f32Parses` below.  The numeric *value* is modeled as a `Nat`: on
canonical decimal integral numerals below `2^24` (the domain every
value-sensitive theorem below restricts itself to) the `f32` parse is
exact and `to_string` re-renders exactly the same digit string, so
`parseNum`/`natToStr` agree with the source there.  The `f32` values
of other in-grammar fields (signs, fractions, exponents, specials, or
integers `≥ 2^24`, which `f32` rounds) are not tracked by this model
and no theorem depends on them. -/

/-- Numeric value of an unsigned decimal numeral, or `none`; below
`2^24` this is the exact value of the source's `f32` parse. -/
def parseNum (s : Str) : Option Nat :=
  if s ≠ [] ∧ s.all Char.isDigit then
    some (s.foldl (fun a c => 10 * a + (c.toNat - 48)) 0)
  else none

/-- Canonical decimal rendering of a natural number: the
`f32::to_string` output for values `f32` represents exactly and whose
shortest round-tripping decimal is the integer itself (every natural
below `2^24`). -/
def natToStr (n : Nat) : Str := (Nat.repr n).data

/-- A digit run: `Count ::= Digit+` in the `f32::from_str` grammar. -/
def isCount (s : Str) : Bool := !s.isEmpty && s.all Char.isDigit

/-- Exponent part of the `f32::from_str` grammar:
`Exp ::= ('e'|'E') Sign? Count`. -/
def isExp (s : Str) : Bool :=
  match s with
  | c :: rest =>
    (c = 'e' || c = 'E') &&
      (match rest with
       | c' :: rest' =>
         if c' = '+' || c' = '-' then isCount rest' else isCount (c' :: rest')
       | [] => false)
  | [] => false

/-- Mantissa-with-exponent of the `f32::from_str` grammar:
`Number ::= Count '.'? Count? Exp? | '.' Count Exp?` — digits with an
optional point and optional exponent, at least one mantissa digit. -/
def isNumber (s : Str) : Bool :=
  match s.dropWhile Char.isDigit with
  | '.' :: r2 =>
    (!(s.takeWhile Char.isDigit).isEmpty ||
     !(r2.takeWhile Char.isDigit).isEmpty) &&
    ((r2.dropWhile Char.isDigit).isEmpty || isExp (r2.dropWhile Char.isDigit))
  | r1 => !(s.takeWhile Char.isDigit).isEmpty && (r1.isEmpty || isExp r1)

/-- ASCII lowercasing, for the case-insensitive comparison
`f32::from_str` applies to its special forms. -/
def lowerAscii (c : Char) : Char :=
  if 65 ≤ c.toNat ∧ c.toNat ≤ 90 then Char.ofNat (c.toNat + 32) else c

/-- The special forms `inf`, `infinity` and `nan` of the
`f32::from_str` grammar, case-insensitively. -/
def isSpecial (s : Str) : Bool :=
  s.map lowerAscii = str "inf" || s.map lowerAscii = str "infinity" ||
  s.map lowerAscii = str "nan"

/-- Success of Rust `str::parse::<f32>` (`f32::from_str`): the string
matches `Float ::= Sign? ('inf' | 'infinity' | 'nan' | Number)`.
Every in-grammar string parses `Ok` (overflow yields an infinite
value), so the `unwrap` in `Token::new` panics exactly on
out-of-grammar fields. -/
def f32Parses (s : Str) : Bool :=
  match s with
  | c :: rest =>
    if c = '+' || c = '-' then isSpecial rest || isNumber rest
    else isSpecial (c :: rest) || isNumber (c :: rest)
  | [] => false

/-- The `Nat` stored for a parsed `f32` field: exact on canonical
integral numerals below `2^24` (the only fields whose value any
theorem below exposes); a placeholder `0` for other in-grammar fields,
whose `f32` values this model does not track. -/
def f32ValInt (s : Str) : Nat := (parseNum s).getD 0

/-! ## The Token model (`string_2_conll.rs`) -/

/-- One row of CoNLL data (`struct Token`). -/
structure Token where
  id : Nat
  form : Str
  lemma' : Str
  pos : Str
  xpos : Str
  feats : Str
  head : Nat
  deprel : Str
  deps : Str
  misc : Str
deriving Repr, DecidableEq

/-- `Token::new`: takes the tab-split fields of one line.  The
source `assert!`s the field count and `unwrap()`s the two
`parse::<f32>` calls; both aborts are modeled as errors, with
`f32Parses` deciding exactly when the unwraps succeed.  (Field
accesses are in bounds by the length check, so `getD` coincides with
the source's iterator; the numeric fields are stored through
`f32ValInt`.) -/
def Token.new (input : List Str) : Except Str Token :=
  if input.length = 10 then
    if f32Parses (input.getD 0 []) && f32Parses (input.getD 6 []) then
      .ok { id := f32ValInt (input.getD 0 [])
            form := input.getD 1 []
            lemma' := input.getD 2 []
            pos := input.getD 3 []
            xpos := input.getD 4 []
            feats := input.getD 5 []
            head := f32ValInt (input.getD 6 [])
            deprel := input.getD 7 []
            deps := input.getD 8 []
            misc := input.getD 9 [] }
    else .error (str "invalid float literal")
  else .error (str "input line does not satisfy Token requirments")

/-- `String2Conll::build` applied to one line: tab-split, then `Token::new`. -/
def tokenOfLine (line : Str) : Except Str Token :=
  Token.new (splitTab line)

/-- `String2Conll::build`: build one token per input line, in order;
the first panicking line aborts the build. -/
def string2conllBuild : List Str → Except Str (List Token)
  | [] => .ok []
  | l :: ls => do
    let t ← tokenOfLine l
    let ts ← string2conllBuild ls
    .ok (t :: ts)

/-- The 10 tab-joined fields emitted for one token by
`Conll2String::init_walk`. -/
def tokenToLine (t : Token) : Str :=
  joinTab [natToStr t.id, t.form, t.lemma', t.pos, t.xpos, t.feats,
           natToStr t.head, t.deprel, t.deps, t.misc]

/-- `Conll2String::build`: the walk fetches the root element
(`get_root_element` errors with "conll is empty" on an empty token
vector), and `init_walk` then emits one line per token in order; the
remaining hooks are no-ops. -/
def conll2stringBuild (tokens : List Token) : Except Str (List Str) :=
  match tokens with
  | [] => .error (str "conll is empty")
  | _ => .ok (tokens.map tokenToLine)

/-- Full dependency round trip: parse the lines into tokens
(`String2Conll::build`), then re-emit them (`Conll2String::build`). -/
def conllRoundtrip (lines : List Str) : Except Str (List Str) :=
  (string2conllBuild lines).bind conll2stringBuild

/-- A line that tab-splits into exactly 10 fields whose `id` and
`head` fields are canonical decimal numerals below `2^24` — the range
in which `f32` represents the parsed value exactly and `to_string`
re-renders the very same digits. -/
def lineCanonical (line : Str) : Bool :=
  let fs := splitTab line
  fs.length = 10 &&
  (match parseNum (fs.getD 0 []) with
   | some n => decide (natToStr n = fs.getD 0 []) && decide (n < 16777216)
   | none => false) &&
  (match parseNum (fs.getD 6 []) with
   | some n => decide (natToStr n = fs.getD 6 []) && decide (n < 16777216)
   | none => false)

@[simp] theorem exceptBind_ok {ε α β : Type _} (a : α) (f : α → Except ε β) :
    (Except.ok a >>= f : Except ε β) = f a := rfl

@[simp] theorem exceptBind_error {ε α β : Type _} (e : ε) (f : α → Except ε β) :
    (Except.error e >>= f : Except ε β) = Except.error e := rfl

theorem length_eq_ten {α : Type _} : ∀ {l : List α}, l.length = 10 →
    ∃ a b c d e f g h i j, l = [a, b, c, d, e, f, g, h, i, j]
  | [a, b, c, d, e, f, g, h, i, j], _ => ⟨a, b, c, d, e, f, g, h, i, j, rfl⟩

/-- A nonempty digit string matches the `f32::from_str` grammar (the
no-dot, no-exponent `Number` form), so `parse::<f32>` succeeds on it. -/
theorem f32Parses_of_parseNum {s : Str} {n : Nat} (h : parseNum s = some n) :
    f32Parses s = true := by
  unfold parseNum at h
  rcases Decidable.em (s ≠ [] ∧ s.all Char.isDigit) with hc | hc
  · obtain ⟨hne, hall⟩ := hc
    rw [List.all_eq_true] at hall
    cases s with
    | nil => exact absurd rfl hne
    | cons c s' =>
      have hcd : c.isDigit = true := hall c (by simp)
      have hplus : ¬ c = '+' := fun hx => by
        subst hx; exact absurd hcd (by decide)
      have hminus : ¬ c = '-' := fun hx => by
        subst hx; exact absurd hcd (by decide)
      have hdrop : (c :: s').dropWhile Char.isDigit = [] :=
        List.dropWhile_eq_nil_iff.mpr (fun x hx => hall x hx)
      have htake : (c :: s').takeWhile Char.isDigit = c :: s' := by
        have happ := @List.takeWhile_append_dropWhile _ Char.isDigit (c :: s')
        rw [hdrop, List.append_nil] at happ
        exact happ
      have hnum : isNumber (c :: s') = true := by
        unfold isNumber
        rw [hdrop, htake]
        simp
      have hgoal : f32Parses (c :: s') =
          (isSpecial (c :: s') || isNumber (c :: s')) := by
        unfold f32Parses
        simp [hplus, hminus]
      rw [hgoal, hnum, Bool.or_true]
  · rw [if_neg hc] at h
    cases h

theorem tokenOfLine_canonical {l : Str} (h : lineCanonical l = true) :
    ∃ t, tokenOfLine l = .ok t ∧ tokenToLine t = l := by
  have hj := joinTab_splitTab l
  simp only [lineCanonical, Bool.and_eq_true, decide_eq_true_eq] at h
  obtain ⟨⟨hlen, h0⟩, h6⟩ := h
  obtain ⟨a, b, c, d, e, f, g, h', i, j, hfs⟩ := length_eq_ten hlen
  rw [hfs] at h0 h6 hj
  simp only [List.getD_cons_zero, List.getD_cons_succ] at h0 h6
  cases hp0 : parseNum a with
  | none => rw [hp0] at h0; simp at h0
  | some n0 =>
    cases hp6 : parseNum g with
    | none => rw [hp6] at h6; simp at h6
    | some n6 =>
      rw [hp0] at h0
      rw [hp6] at h6
      simp only [Bool.and_eq_true, decide_eq_true_eq] at h0 h6
      refine ⟨⟨n0, b, c, d, e, f, n6, h', i, j⟩, ?_, ?_⟩
      · unfold tokenOfLine
        rw [hfs]
        unfold Token.new
        rw [if_pos (by simp)]
        simp only [List.getD_cons_zero, List.getD_cons_succ]
        rw [f32Parses_of_parseNum hp0, f32Parses_of_parseNum hp6]
        simp only [Bool.and_self, if_true]
        unfold f32ValInt
        rw [hp0, hp6]
        rfl
      · simpa [tokenToLine, h0.1, h6.1] using hj

theorem mapM_tokenOfLine {lines : List Str}
    (h : ∀ l ∈ lines, lineCanonical l = true) :
    ∃ ts, string2conllBuild lines = .ok ts ∧ ts.map tokenToLine = lines := by
  induction lines with
  | nil => exact ⟨[], rfl, rfl⟩
  | cons l ls ih =>
    obtain ⟨t, ht, hline⟩ := tokenOfLine_canonical (h l (by simp))
    obtain ⟨ts, hts, hmap⟩ := ih (fun x hx => h x (by simp [hx]))
    refine ⟨t :: ts, ?_, by simp [hmap, hline]⟩
    simp [string2conllBuild, ht, hts, Except.bind]

/-- C1 (amended): the dependency round trip
`Conll2String(String2Conll(lines)) = lines` holds for every *nonempty*
list of lines that tab-split into exactly 10 fields whose `id` and
`head` fields are canonical decimal numerals below `2^24`;
serialization re-renders `id` and `head` from their parsed `f32`
values, so the hypotheses exclude both non-canonical numerals (e.g.
`"00"`, re-emitted as `"0"`) and numerals at or above `2^24`, which
the `f32` parse rounds; an empty sequence makes `Conll2String`'s walk
fail with "conll is empty". -/
theorem conll_roundtrip (lines : List Str) (hne : lines ≠ [])
    (h : ∀ l ∈ lines, lineCanonical l = true) :
    conllRoundtrip lines = .ok lines := by
  obtain ⟨ts, hts, hmap⟩ := mapM_tokenOfLine h
  have htsne : ts ≠ [] := by
    intro h0
    rw [h0] at hmap
    exact hne hmap.symm
  unfold conllRoundtrip
  rw [hts]
  cases ts with
  | nil => exact absurd rfl htsne
  | cons t ts' => simpa [conll2stringBuild, Except.bind] using hmap

/-- Witness for C1's amended round trip at the library's own
five-line documentation example. -/
theorem conll_roundtrip_witness :
    conllRoundtrip [str "0\tThe\tthe\tDET\t_\t_\t1\tdet\t_\t_",
                    str "1\tpeople\tpeople\tNOUN\t_\t_\t2\tnsubj\t_\t_",
                    str "2\twatch\twatch\tVERB\t_\t_\t2\tROOT\t_\t_",
                    str "3\tthe\tthe\tDET\t_\t_\t4\tdet\t_\t_",
                    str "4\tgame\tgame\tNOUN\t_\t_\t2\tdobj\t_\t_"] =
    .ok [str "0\tThe\tthe\tDET\t_\t_\t1\tdet\t_\t_",
         str "1\tpeople\tpeople\tNOUN\t_\t_\t2\tnsubj\t_\t_",
         str "2\twatch\twatch\tVERB\t_\t_\t2\tROOT\t_\t_",
         str "3\tthe\tthe\tDET\t_\t_\t4\tdet\t_\t_",
         str "4\tgame\tgame\tNOUN\t_\t_\t2\tdobj\t_\t_"] :=
  conll_roundtrip _ (by decide) (by decide)

/-- C1 counterexample to the claim as stated: the line below has
exactly 10 tab-separated fields and its `id` ("00") and `head` ("0")
fields parse as numbers, yet the round trip returns "0" for the id
field; moreover the empty (vacuously valid) sequence errors instead of
round-tripping. -/
theorem conll_roundtrip_counterexample :
    conllRoundtrip [str "00\tThe\tthe\tDET\t_\t_\t0\tdet\t_\t_"] =
      .ok [str "0\tThe\tthe\tDET\t_\t_\t0\tdet\t_\t_"] ∧
    [str "0\tThe\tthe\tDET\t_\t_\t0\tdet\t_\t_"] ≠
      [str "00\tThe\tthe\tDET\t_\t_\t0\tdet\t_\t_"] ∧
    conllRoundtrip [] = .error (str "conll is empty") := by
  refine ⟨by rfl, by decide, by rfl⟩

/-! ## C9: per-line field-arity and numeric-parse validation -/

/-- C9: building a token from a line succeeds exactly when the line
tab-splits into 10 fields whose id and head fields parse as numbers
(success of `parse::<f32>`, i.e. membership in the `f32::from_str`
grammar); otherwise that line is a fatal error and yields no token,
and the whole `String2Conll::build` fails as soon as one line is
invalid. -/
theorem tokenOfLine_ok_iff :
    (∀ line : Str, (tokenOfLine line).isOk = true ↔
      ((splitTab line).length = 10 ∧
       f32Parses ((splitTab line).getD 0 []) = true ∧
       f32Parses ((splitTab line).getD 6 []) = true)) ∧
    (∀ lines : List Str,
      (string2conllBuild lines).isOk = true ↔
        ∀ line ∈ lines, (tokenOfLine line).isOk = true) := by
  constructor
  · intro line
    unfold tokenOfLine Token.new
    by_cases hlen : (splitTab line).length = 10
    · rw [if_pos hlen]
      cases hp0 : f32Parses ((splitTab line).getD 0 []) <;>
        cases hp6 : f32Parses ((splitTab line).getD 6 []) <;>
        simp [Except.isOk, Except.toBool, hp0, hp6, hlen]
    · rw [if_neg hlen]
      simp [Except.isOk, Except.toBool, hlen]
  · intro lines
    induction lines with
    | nil => simp [string2conllBuild, Except.isOk, Except.toBool]
    | cons l ls ih =>
      cases hl : tokenOfLine l with
      | error e => simp [string2conllBuild, Except.isOk, Except.toBool, Except.bind, hl]
      | ok t =>
        cases hls : string2conllBuild ls with
        | error e =>
          rw [hls] at ih
          simp only [Except.isOk, Except.toBool] at ih
          simp [string2conllBuild, Except.isOk, Except.toBool, Except.bind, hl, hls, ← ih]
        | ok ts =>
          rw [hls] at ih
          simp only [Except.isOk, Except.toBool] at ih
          simp [string2conllBuild, Except.isOk, Except.toBool, Except.bind, hl, hls, ← ih]

/-- Witness for C9 at concrete lines: a 9-field line fails, a
10-field line with unparsable head fails, a canonical line and a line
with fractional/negative numeric fields (in the `f32` grammar)
succeed. -/
theorem tokenOfLine_ok_iff_witness :
    (tokenOfLine (str "0\tThe\tthe\tDET\t_\t_\t1\tdet\t_")).isOk = false ∧
    (tokenOfLine (str "0\tThe\tthe\tDET\t_\t_\tx\tdet\t_\t_")).isOk = false ∧
    (tokenOfLine (str "0\tThe\tthe\tDET\t_\t_\t1\tdet\t_\t_")).isOk = true ∧
    (tokenOfLine (str "1.5\tThe\tthe\tDET\t_\t_\t-2\tdet\t_\t_")).isOk = true ∧
    (string2conllBuild [str "0\tThe\tthe\tDET\t_\t_\t1\tdet\t_"]).isOk = false := by
  refine ⟨?_, ?_, ?_, ?_, ?_⟩
  · have h := (tokenOfLine_ok_iff.1 (str "0\tThe\tthe\tDET\t_\t_\t1\tdet\t_")).not
    simp only [Bool.not_eq_true] at h
    exact h.mpr (by decide)
  · have h := (tokenOfLine_ok_iff.1 (str "0\tThe\tthe\tDET\t_\t_\tx\tdet\t_\t_")).not
    simp only [Bool.not_eq_true] at h
    exact h.mpr (by decide)
  · exact (tokenOfLine_ok_iff.1 (str "0\tThe\tthe\tDET\t_\t_\t1\tdet\t_\t_")).mpr (by decide)
  · exact (tokenOfLine_ok_iff.1 (str "1.5\tThe\tthe\tDET\t_\t_\t-2\tdet\t_\t_")).mpr (by decide)
  · have h := (tokenOfLine_ok_iff.2 [str "0\tThe\tthe\tDET\t_\t_\t1\tdet\t_"]).not
    simp only [Bool.not_eq_true] at h
    refine h.mpr ?_
    intro hall
    have := hall (str "0\tThe\tthe\tDET\t_\t_\t1\tdet\t_") (by simp)
    rw [(tokenOfLine_ok_iff.1 _)] at this
    exact absurd this (by decide)

/-! ## C4: root discovery (`Conll2Plot::get_root_element`) -/

/-- The root test of the source: `token_id == token_head`. -/
def isRoot (t : Token) : Bool := t.id = t.head

/-- Number of root tokens in a sequence. -/
def rootCount (tokens : List Token) : Nat := tokens.countP isRoot

/-- The search loop of `get_root_element`: scan the tokens in order,
recording the root id; a second root panics with
"not supporting more than one root". -/
def findRoot : List Token → Option Nat → Except Str (Option Nat)
  | [], acc => .ok acc
  | t :: ts, acc =>
    if isRoot t then
      match acc with
      | some _ => .error (str "not supporting more than one root")
      | none => findRoot ts (some t.id)
    else findRoot ts acc

/-- `Conll2Plot::get_root_element`: after the scan, `assert!` that a
root was found, then return `&tokens[root_id as usize]` (an
out-of-range index would abort; both aborts are modeled as errors). -/
def getRootElement (tokens : List Token) : Except Str Token := do
  match ← findRoot tokens none with
  | none => .error (str "assertion failed: root_id.is_some()")
  | some i =>
    match tokens.get? i with
    | some tk => .ok tk
    | none => .error (str "index out of bounds")

/-- The data-model invariant of the spec: tokens appear in increasing
id order starting at 0, i.e. the token at position `k` has id `k`. -/
def idsFrom (k : Nat) : List Token → Bool
  | [] => true
  | t :: ts => t.id = k && idsFrom (k + 1) ts

/-- Tokens are indexed by their own ids. -/
def idsIndexed (tokens : List Token) : Bool := idsFrom 0 tokens

theorem idsFrom_mem {k : Nat} {ts : List Token} {t : Token}
    (h : idsFrom k ts = true) (hmem : t ∈ ts) :
    k ≤ t.id ∧ ts.get? (t.id - k) = some t := by
  induction ts generalizing k with
  | nil => cases hmem
  | cons t' ts' ih =>
    obtain ⟨hid, hrest⟩ : t'.id = k ∧ idsFrom (k + 1) ts' = true := by
      simpa [idsFrom] using h
    rcases List.mem_cons.mp hmem with rfl | hmem'
    · simp [hid]
    · obtain ⟨hle, hget⟩ := ih hrest hmem'
      refine ⟨by omega, ?_⟩
      have : t.id - k = (t.id - (k + 1)) + 1 := by omega
      rw [this]
      simpa using hget

theorem findRoot_zero {ts : List Token} (h : ts.countP isRoot = 0)
    (acc : Option Nat) : findRoot ts acc = .ok acc := by
  induction ts generalizing acc with
  | nil => rfl
  | cons t ts' ih =>
    rw [List.countP_cons] at h
    by_cases hr : isRoot t = true
    · simp [hr] at h
    · simp only [hr, Bool.false_eq_true, if_false] at h
      simp only [findRoot, hr]
      simp only [Bool.false_eq_true, if_false]
      exact ih (by omega) acc

theorem findRoot_some {ts : List Token} (h : 1 ≤ ts.countP isRoot)
    (k : Nat) : findRoot ts (some k) = .error (str "not supporting more than one root") := by
  induction ts generalizing k with
  | nil => simp [List.countP_nil] at h
  | cons t ts' ih =>
    rw [List.countP_cons] at h
    by_cases hr : isRoot t = true
    · simp [findRoot, hr]
    · simp only [hr, Bool.false_eq_true, if_false] at h
      simp only [findRoot, hr]
      simp only [Bool.false_eq_true, if_false]
      exact ih (by omega) k

theorem findRoot_one {ts : List Token} (h : ts.countP isRoot = 1) :
    ∃ t ∈ ts, isRoot t = true ∧ findRoot ts none = .ok (some t.id) := by
  induction ts with
  | nil => simp [List.countP_nil] at h
  | cons t ts' ih =>
    rw [List.countP_cons] at h
    by_cases hr : isRoot t = true
    · simp only [hr, if_true] at h
      refine ⟨t, by simp, hr, ?_⟩
      simp only [findRoot, hr, if_true]
      exact findRoot_zero (by omega) _
    · simp only [hr, Bool.false_eq_true, if_false] at h
      obtain ⟨u, hu, hru, hfr⟩ := ih (by omega)
      refine ⟨u, by simp [hu], hru, ?_⟩
      simp only [findRoot, hr]
      simp only [Bool.false_eq_true, if_false]
      exact hfr

theorem findRoot_two {ts : List Token} (h : 2 ≤ ts.countP isRoot) :
    findRoot ts none = .error (str "not supporting more than one root") := by
  induction ts with
  | nil => simp [List.countP_nil] at h
  | cons t ts' ih =>
    rw [List.countP_cons] at h
    by_cases hr : isRoot t = true
    · simp only [hr, if_true] at h
      simp only [findRoot, hr, if_true]
      exact findRoot_some (by omega) _
    · simp only [hr, Bool.false_eq_true, if_false] at h
      simp only [findRoot, hr]
      simp only [Bool.false_eq_true, if_false]
      exact ih (by omega)

/-- C4: under the data-model invariant (token at position `k` has id
`k`), root discovery succeeds iff exactly one token satisfies
`head == id`, and two or more such tokens raise exactly the error
"not supporting more than one root".  (`String2Conll::build` itself
performs no root check; the check runs in `get_root_element` when the
dependency walk starts.) -/
theorem getRootElement_spec (tokens : List Token)
    (hinv : idsIndexed tokens = true) :
    ((getRootElement tokens).isOk = true ↔ rootCount tokens = 1) ∧
    (2 ≤ rootCount tokens →
      getRootElement tokens = .error (str "not supporting more than one root")) := by
  constructor
  · constructor
    · intro hok
      by_contra hne
      rcases Nat.lt_or_ge (rootCount tokens) 1 with h1 | h1
      · have h0 : tokens.countP isRoot = 0 := by
          unfold rootCount at h1; omega
        unfold getRootElement at hok
        rw [findRoot_zero h0] at hok
        simp [Except.isOk, Except.toBool] at hok
      · have h2 : 2 ≤ tokens.countP isRoot := by
          unfold rootCount at hne h1; omega
        unfold getRootElement at hok
        rw [findRoot_two h2] at hok
        simp [Except.isOk, Except.toBool] at hok
    · intro h1
      obtain ⟨t, hmem, hrt, hfr⟩ := findRoot_one h1
      obtain ⟨-, hget⟩ := idsFrom_mem (k := 0) hinv hmem
      unfold getRootElement
      rw [hfr]
      simp only [exceptBind_ok]
      rw [show t.id - 0 = t.id from rfl] at hget
      rw [hget]
      simp [Except.isOk, Except.toBool]
  · intro h2
    unfold getRootElement
    rw [findRoot_two h2]
    rfl

/-- Witness for C4: the five-token documentation example has exactly
one root (token 2) and root discovery returns it; duplicating the root
line makes the count 2 and raises the expected error. -/
theorem getRootElement_spec_witness :
    ((getRootElement [⟨0, str "The", str "the", str "DET", str "_", str "_", 1, str "det", str "_", str "_"⟩,
                      ⟨1, str "people", str "people", str "NOUN", str "_", str "_", 2, str "nsubj", str "_", str "_"⟩,
                      ⟨2, str "watch", str "watch", str "VERB", str "_", str "_", 2, str "ROOT", str "_", str "_"⟩]).isOk = true) ∧
    (getRootElement [⟨0, str "a", [], [], [], [], 0, [], [], []⟩,
                     ⟨1, str "b", [], [], [], [], 1, [], [], []⟩] =
      .error (str "not supporting more than one root")) := by
  constructor
  · exact ((getRootElement_spec _ (by decide)).1).mpr (by decide)
  · exact (getRootElement_spec _ (by decide)).2 (by decide)

/-! ## C5: child enumeration (`Conll2Plot::get_children_ids`) -/

/-- `(root_token_id - token_id).abs()` as a natural distance. -/
def distOf (cur t : Token) : Nat := ((cur.id : Int) - (t.id : Int)).natAbs

/-- The `(token_id, distance)` pairs pushed by the collection loop:
tokens whose head is the current token's id, excluding the current
token itself, in source order. -/
def childPairs (tokens : List Token) (cur : Token) : List (Nat × Nat) :=
  tokens.filterMap (fun t =>
    if t.head = cur.id ∧ t.id ≠ cur.id then some (t.id, distOf cur t) else none)

/-- Rust's stable `sort_by(|x, y| x.1.cmp(&y.1))` on the distance
component, modeled by the (stable) insertion sort. -/
def sortPairs (ps : List (Nat × Nat)) : List (Nat × Nat) :=
  ps.insertionSort (fun a b => a.2 ≤ b.2)

/-- The final mapping `Element::TID(&self.tokens[*token_id as usize])`
applied to each sorted pair (an out-of-range id would abort). -/
def lookupTokens (tokens : List Token) : List (Nat × Nat) → Except Str (List Token)
  | [] => .ok []
  | p :: ps =>
    match tokens.get? p.1 with
    | some t => do
      let ts ← lookupTokens tokens ps
      .ok (t :: ts)
    | none => .error (str "index out of bounds")

/-- `Conll2Plot::get_children_ids`. -/
def getChildrenIds (tokens : List Token) (cur : Token) : Except Str (List Token) :=
  lookupTokens tokens (sortPairs (childPairs tokens cur))

theorem filterMap_if_eq_map_filter {α β : Type _} (p : α → Prop) [DecidablePred p]
    (f : α → β) (l : List α) :
    l.filterMap (fun a => if p a then some (f a) else none) =
      (l.filter (fun a => decide (p a))).map f := by
  induction l with
  | nil => rfl
  | cons a l ih =>
    by_cases hp : p a
    · simp [List.filterMap_cons, List.filter_cons, hp, ih]
    · simp [List.filterMap_cons, List.filter_cons, hp, ih]

theorem filter_orderedInsert (key : Token → Nat) (d : Nat) (a : Token) (l : List Token) :
    (List.orderedInsert (fun x y => key x ≤ key y) a l).filter (fun x => decide (key x = d)) =
      if key a = d then a :: l.filter (fun x => decide (key x = d))
      else l.filter (fun x => decide (key x = d)) := by
  induction l with
  | nil => by_cases h : key a = d <;> simp [List.orderedInsert, List.filter, h]
  | cons b l ih =>
    simp only [List.orderedInsert]
    by_cases hab : key a ≤ key b
    · rw [if_pos hab]
      by_cases ha : key a = d <;> simp [List.filter_cons, ha]
    · rw [if_neg hab]
      have hb : key b < key a := Nat.lt_of_not_le hab
      by_cases ha : key a = d
      · have hbd : ¬ key b = d := by omega
        simp [List.filter_cons, hbd, ih, ha]
      · by_cases hbd : key b = d <;> simp [List.filter_cons, hbd, ih, ha]

theorem filter_insertionSort (key : Token → Nat) (d : Nat) (l : List Token) :
    (l.insertionSort (fun x y => key x ≤ key y)).filter (fun x => decide (key x = d)) =
      l.filter (fun x => decide (key x = d)) := by
  induction l with
  | nil => rfl
  | cons a l ih =>
    simp only [List.insertionSort]
    rw [filter_orderedInsert, ih]
    by_cases ha : key a = d <;> simp [List.filter_cons, ha]

theorem lookupTokens_map_id {tokens : List Token}
    (hinv : idsIndexed tokens = true) (g : Token → Nat) (l : List Token)
    (hl : ∀ t ∈ l, t ∈ tokens) :
    lookupTokens tokens (l.map (fun t => (t.id, g t))) = .ok l := by
  induction l with
  | nil => rfl
  | cons t l ih =>
    obtain ⟨-, hget⟩ := idsFrom_mem (k := 0) hinv (hl t (by simp))
    rw [show t.id - 0 = t.id from rfl] at hget
    simp only [List.map_cons, lookupTokens, hget]
    rw [ih (fun u hu => hl u (by simp [hu]))]
    rfl

/-- C5: the children enumerated for the arc walk are exactly the
tokens whose head is the current token's id (excluding the token
itself), ascending by absolute id-distance, with the original token
order preserved among equal distances (the per-distance sublists of
the output coincide with those of the source-order filtered list). -/
theorem getChildrenIds_spec (tokens : List Token) (cur : Token)
    (hinv : idsIndexed tokens = true) :
    ∃ cs, getChildrenIds tokens cur = .ok cs ∧
      (∀ t, t ∈ cs ↔ (t ∈ tokens ∧ t.head = cur.id ∧ t.id ≠ cur.id)) ∧
      cs.Pairwise (fun a b => distOf cur a ≤ distOf cur b) ∧
      (∀ d, cs.filter (fun t => decide (distOf cur t = d)) =
        (tokens.filter (fun t => decide (t.head = cur.id ∧ t.id ≠ cur.id))).filter
          (fun t => decide (distOf cur t = d))) := by
  classical
  set r : Token → Token → Prop := fun x y => distOf cur x ≤ distOf cur y with hr
  letI : DecidableRel r := fun x y => Nat.decLe _ _
  haveI hTot : IsTotal Token r := ⟨fun a b => Nat.le_total _ _⟩
  haveI hTrans : IsTrans Token r := ⟨fun a b c hab hbc => Nat.le_trans hab hbc⟩
  set filtered : List Token :=
    tokens.filter (fun t => decide (t.head = cur.id ∧ t.id ≠ cur.id)) with hfiltered
  refine ⟨filtered.insertionSort r, ?_, ?_, ?_, ?_⟩
  · unfold getChildrenIds sortPairs childPairs
    rw [filterMap_if_eq_map_filter (p := fun t => t.head = cur.id ∧ t.id ≠ cur.id)
      (f := fun t => (t.id, distOf cur t))]
    rw [← List.map_insertionSort (r := r) (s := fun a b : Nat × Nat => a.2 ≤ b.2)
      (fun t => (t.id, distOf cur t)) filtered (fun a _ b _ => Iff.rfl)]
    exact lookupTokens_map_id hinv _ _ (fun t ht =>
      List.mem_filter.mp ((List.mem_insertionSort r).mp ht) |>.1)
  · intro t
    rw [List.mem_insertionSort r, hfiltered, List.mem_filter]
    simp
  · exact List.sorted_insertionSort r filtered
  · intro d
    exact filter_insertionSort (distOf cur) d filtered

/-- Witness for C5: a three-token sequence whose middle token is the
head of both neighbours; both children are at distance 1 and keep
their source order. -/
theorem getChildrenIds_spec_witness :
    ∃ cs, getChildrenIds
        [⟨0, str "a", [], [], [], [], 1, [], [], []⟩,
         ⟨1, str "b", [], [], [], [], 1, [], [], []⟩,
         ⟨2, str "c", [], [], [], [], 1, [], [], []⟩]
        ⟨1, str "b", [], [], [], [], 1, [], [], []⟩ = .ok cs ∧
      (∀ t, t ∈ cs ↔ (t ∈ [⟨0, str "a", [], [], [], [], 1, [], [], []⟩,
         ⟨1, str "b", [], [], [], [], 1, [], [], []⟩,
         ⟨2, str "c", [], [], [], [], 1, [], [], []⟩] ∧
         t.head = 1 ∧ t.id ≠ 1)) ∧
      cs.Pairwise (fun a b => distOf ⟨1, str "b", [], [], [], [], 1, [], [], []⟩ a ≤
        distOf ⟨1, str "b", [], [], [], [], 1, [], [], []⟩ b) ∧
      (∀ d, cs.filter (fun t => decide (distOf ⟨1, str "b", [], [], [], [], 1, [], [], []⟩ t = d)) =
        ([⟨0, str "a", [], [], [], [], 1, [], [], []⟩,
          ⟨1, str "b", [], [], [], [], 1, [], [], []⟩,
          ⟨2, str "c", [], [], [], [], 1, [], [], []⟩].filter
            (fun t => decide (t.head = 1 ∧ t.id ≠ 1))).filter
          (fun t => decide (distOf ⟨1, str "b", [], [], [], [], 1, [], [], []⟩ t = d))) :=
  getChildrenIds_spec _ _ (by decide)

/-! ## C3: arc-height computation (`Conll2Plot::extract`)

`walk_args` is a vector of per-token 2-slot height records
(`[f32; 2]`: slot 0 = left side, slot 1 = right side); the recorded
heights are the naturals `0, 1, 2, …` (the `as usize` casts in the
source), so the slots are modeled as `Nat × Nat`. -/

abbrev WalkArgs := List (Nat × Nat)

/-- `walk_args[i]` (a panicking index). -/
def getPair (w : WalkArgs) (i : Nat) : Except Str (Nat × Nat) :=
  match w.get? i with
  | some p => .ok p
  | none => .error (str "index out of bounds")

/-- `if start <= end { walk_args[start..=end].concat() }`: both slots
of every record in the closed slice, in order (panics if the slice
overruns). -/
def slicePairs (w : WalkArgs) (start stop : Nat) : Except Str (List Nat) :=
  if start ≤ stop then
    if stop < w.length then
      .ok (((w.drop start).take (stop + 1 - start)).flatMap (fun p => [p.1, p.2]))
    else .error (str "index out of bounds")
  else .ok []

/-- `walk_args[i][side] = v` (`side` 0 or 1); out-of-range writes do
not occur on the paths where this is used. -/
def setSlot (w : WalkArgs) (i side v : Nat) : WalkArgs :=
  match w.get? i with
  | some p => w.set i (if side = 0 then (v, p.2) else (p.1, v))
  | none => w

/-- `Conll2Plot::extract`'s `update` closure: computes the arc height
for one token and updates both endpoint slots; `-1` for the root. -/
def extract (t : Token) (w : WalkArgs) : Except Str (Int × WalkArgs) :=
  if t.id < t.head then do
    let potential ← slicePairs w (t.id + 1) (t.head - 1)
    let pid ← getPair w t.id
    let phead ← getPair w t.head
    let height := 1 + (potential ++ [pid.2, phead.1]).foldl max 0
    .ok ((height : Int), setSlot (setSlot w t.id 1 height) t.head 0 height)
  else if t.head < t.id then do
    let potential ← slicePairs w (t.head + 1) (t.id - 1)
    let pid ← getPair w t.id
    let phead ← getPair w t.head
    let height := 1 + (potential ++ [pid.1, phead.2]).foldl max 0
    .ok ((height : Int), setSlot (setSlot w t.id 0 height) t.head 1 height)
  else .ok (-1, w)

/-- The plot loop draws an arc only when `height >= 0.0`. -/
def arcIsDrawn (height : Int) : Bool := 0 ≤ height

/-- Specification height (from the claim): 1 plus the maximum over the
slots of all tokens strictly between `id` and `head`, the token's own
slot on the side facing its head, and the head's slot on the opposite
side, with 0 as the default. -/
def heightSpecNat (t : Token) (w : WalkArgs) : Nat :=
  let lo := min t.id t.head
  let hi := max t.id t.head
  let between := (List.range' (lo + 1) (hi - lo - 1)).flatMap
    (fun i => [(w.getD i (0, 0)).1, (w.getD i (0, 0)).2])
  let own := if t.id < t.head then (w.getD t.id (0, 0)).2 else (w.getD t.id (0, 0)).1
  let opp := if t.id < t.head then (w.getD t.head (0, 0)).1 else (w.getD t.head (0, 0)).2
  1 + (between ++ [own, opp]).foldl max 0

/-- Specification height including the root sentinel. -/
def heightSpec (t : Token) (w : WalkArgs) : Int :=
  if t.id = t.head then -1 else (heightSpecNat t w : Int)

/-- Specification state update: both endpoints' facing slots receive
the new height; the root leaves the state unchanged. -/
def updateSpec (t : Token) (w : WalkArgs) : WalkArgs :=
  if t.id = t.head then w
  else
    let h := heightSpecNat t w
    setSlot (setSlot w t.id (if t.id < t.head then 1 else 0) h)
      t.head (if t.id < t.head then 0 else 1) h

theorem drop_take_eq_map_range' {α : Type _} (d : α) (w : List α) (s n : Nat)
    (h : s + n ≤ w.length) :
    (w.drop s).take n = (List.range' s n).map (fun i => w.getD i d) := by
  apply List.ext_getElem
  · simp [List.length_take, List.length_drop, List.length_range']
    omega
  · intro i h1 h2
    have hs : s + i < w.length := by
      simp [List.length_take, List.length_drop] at h1
      omega
    have hi : i < n := by simpa [List.length_range'] using h2
    rw [List.getElem_take, List.getElem_drop]
    rw [List.getElem_map, List.getElem_range']
    simp only [one_mul]
    rw [List.getD_eq_getElem _ _ (by omega : s + i < w.length)]

/-- C3: for in-range endpoints, `extract` returns exactly the
claim's height — `1 + max` over the slots of tokens strictly between
`id` and `head`, the token's own facing slot and the head's opposite
slot (default 0) — updating both endpoint slots, and assigns the root
the sentinel `-1` (for which no arc is drawn) without touching the
state. -/
theorem extract_spec (t : Token) (w : WalkArgs)
    (hid : t.id < w.length) (hhead : t.head < w.length) :
    extract t w = .ok (heightSpec t w, updateSpec t w) ∧
    (t.id = t.head → heightSpec t w = -1 ∧ arcIsDrawn (heightSpec t w) = false ∧
      updateSpec t w = w) := by
  have e1 : w.get? t.id = some (w.getD t.id (0, 0)) := by
    rw [List.get?_eq_getElem?, List.getElem?_eq_getElem hid, List.getD_eq_getElem _ _ hid]
  have e2 : w.get? t.head = some (w.getD t.head (0, 0)) := by
    rw [List.get?_eq_getElem?, List.getElem?_eq_getElem hhead, List.getD_eq_getElem _ _ hhead]
  rcases Nat.lt_trichotomy t.id t.head with hlt | heq | hgt
  · have hne : ¬ t.id = t.head := Nat.ne_of_lt hlt
    refine ⟨?_, fun heq' => absurd heq' hne⟩
    unfold extract heightSpec updateSpec heightSpecNat
    rw [if_pos hlt, if_neg hne, if_neg hne]
    rw [Nat.min_eq_left (Nat.le_of_lt hlt), Nat.max_eq_right (Nat.le_of_lt hlt)]
    simp only [if_pos hlt]
    unfold slicePairs getPair
    rw [e1, e2]
    by_cases hss : t.id + 1 ≤ t.head - 1
    · rw [if_pos hss, if_pos (by omega : t.head - 1 < w.length)]
      rw [drop_take_eq_map_range' (0, 0) w (t.id + 1) (t.head - 1 + 1 - (t.id + 1)) (by omega)]
      rw [List.flatMap_map]
      rw [show t.head - 1 + 1 - (t.id + 1) = t.head - t.id - 1 by omega]
      simp only [exceptBind_ok]
    · rw [if_neg hss]
      rw [show t.head - t.id - 1 = 0 by omega]
      simp only [List.range'_zero, List.flatMap_nil, exceptBind_ok]
  · have hlt' : ¬ t.id < t.head := by omega
    have hgt' : ¬ t.head < t.id := by omega
    refine ⟨?_, fun _ => ⟨?_, ?_, ?_⟩⟩
    · unfold extract heightSpec updateSpec
      rw [if_neg hlt', if_neg hgt', if_pos heq, if_pos heq]
    · unfold heightSpec
      rw [if_pos heq]
    · unfold heightSpec
      rw [if_pos heq]
      rfl
    · unfold updateSpec
      rw [if_pos heq]
  · have hne : ¬ t.id = t.head := by omega
    have hlt' : ¬ t.id < t.head := by omega
    refine ⟨?_, fun heq' => absurd heq' hne⟩
    unfold extract heightSpec updateSpec heightSpecNat
    rw [if_neg hlt', if_pos hgt, if_neg hne, if_neg hne]
    rw [Nat.min_eq_right (Nat.le_of_lt hgt), Nat.max_eq_left (Nat.le_of_lt hgt)]
    simp only [if_neg hlt']
    unfold slicePairs getPair
    rw [e1, e2]
    by_cases hss : t.head + 1 ≤ t.id - 1
    · rw [if_pos hss, if_pos (by omega : t.id - 1 < w.length)]
      rw [drop_take_eq_map_range' (0, 0) w (t.head + 1) (t.id - 1 + 1 - (t.head + 1)) (by omega)]
      rw [List.flatMap_map]
      rw [show t.id - 1 + 1 - (t.head + 1) = t.id - t.head - 1 by omega]
      simp only [exceptBind_ok]
    · rw [if_neg hss]
      rw [show t.id - t.head - 1 = 0 by omega]
      simp only [List.range'_zero, List.flatMap_nil, exceptBind_ok]

/-- Witness for C3 at concrete inputs: an arc from token 0 to head 2
over a fresh state gets height 1 with both facing slots updated, and
the root token (id = head = 1) gets `-1` with no arc and no update. -/
theorem extract_spec_witness :
    (extract ⟨0, [], [], [], [], [], 2, [], [], []⟩ [(0, 0), (0, 0), (0, 0)] =
      .ok (1, [(0, 1), (0, 0), (1, 0)]) ∧
     heightSpec ⟨0, [], [], [], [], [], 2, [], [], []⟩ [(0, 0), (0, 0), (0, 0)] = 1) ∧
    (heightSpec ⟨1, [], [], [], [], [], 1, [], [], []⟩ [(0, 0), (0, 0)] = -1 ∧
     arcIsDrawn (heightSpec ⟨1, [], [], [], [], [], 1, [], [], []⟩ [(0, 0), (0, 0)]) = false ∧
     updateSpec ⟨1, [], [], [], [], [], 1, [], [], []⟩ [(0, 0), (0, 0)] = [(0, 0), (0, 0)]) := by
  constructor
  · have h := (extract_spec ⟨0, [], [], [], [], [], 2, [], [], []⟩
      [(0, 0), (0, 0), (0, 0)] (by decide) (by decide)).1
    constructor
    · rw [h]; rfl
    · rfl
  · exact (extract_spec ⟨1, [], [], [], [], [], 1, [], [], []⟩
      [(0, 0), (0, 0)] (by decide) (by decide)).2 rfl

/-! ## Ordered labeled trees

The tree model shared by the constituency parser/serializer, the
generic walk (C6) and the subtree-children counter (C10).  In the
source a node is an `id_tree` node holding a `String` label and an
insertion-ordered child list; here an element is identified with the
subtree it roots. -/

inductive RTree where
  | node (label : Str) (children : List RTree)

/-- The node's label. -/
def RTree.label : RTree → Str
  | .node l _ => l

/-- The node's children in insertion order (`get_children_ids`). -/
def RTree.children : RTree → List RTree
  | .node _ cs => cs

/-! ## C6: the generic DFS walk (`WalkTree::walk`)

The six `WalkActions` hooks are recorded as abstract trace events; the
engine itself never inspects the accumulator, so the trace captures
exactly the sequence and arguments of hook invocations. -/

inductive HookEv where
  | initW (e : RTree)
  | onNodeW (e : RTree)
  | onChildW (e : RTree)
  | finishTrajW (e : RTree)
  | postWalkW (e : RTree)
  | finishRecW

mutual
/-- The `item.is_some()` branch of `WalkTree::walk`: fetch the
children; a childless element is a leaf (only `finish_trajectory`);
otherwise `on_node`, then the child loop, then `finish_recursion`. -/
def walkSome : RTree → List HookEv
  | .node l [] => [.finishTrajW (.node l [])]
  | .node l (c :: cs) =>
    .onNodeW (.node l (c :: cs)) :: walkChildren (c :: cs) ++ [.finishRecW]

/-- The `for child_element_id in children_ids` loop: `on_child`,
recurse, `post_walk_update`, per child in reported order. -/
def walkChildren : List RTree → List HookEv
  | [] => []
  | c :: cs => .onChildW c :: (walkSome c ++ [.postWalkW c]) ++ walkChildren cs
end

/-- `WalkTree::walk`: starting with `None`, fetch the root, run
`init_walk`, recurse into the root, then `post_walk_update` it. -/
def walk (root : RTree) : Option RTree → List HookEv
  | none => .initW root :: (walkSome root ++ [.postWalkW root])
  | some t => walkSome t

mutual
/-- Specification trace of one element, written from the claim: a
childless element fires only `finish_trajectory`; an element with
children fires `on_node` once, then for each child in order
`on_child`, the child's own trace, `post_walk_update`, and after the
last child a single `finish_recursion`. -/
def hookSpecSub : RTree → List HookEv
  | .node l cs =>
    if cs.isEmpty then [.finishTrajW (.node l cs)]
    else .onNodeW (.node l cs) :: hookSpecForest cs ++ [.finishRecW]

/-- Specification trace of a child list, in the structure's order. -/
def hookSpecForest : List RTree → List HookEv
  | [] => []
  | c :: cs => (.onChildW c :: hookSpecSub c ++ [.postWalkW c]) ++ hookSpecForest cs
end

/-- Specification trace of one full walk invocation, from the claim:
`init_walk` on the root, the root's trace, `post_walk_update` on the
root. -/
def hookSpec (root : RTree) : List HookEv :=
  .initW root :: (hookSpecSub root ++ [.postWalkW root])

mutual
theorem walkSome_eq : ∀ t, walkSome t = hookSpecSub t
  | .node l [] => by simp [walkSome, hookSpecSub]
  | .node l (c :: cs) => by
    rw [walkSome, hookSpecSub]
    simp [walkChildren_eq (c :: cs)]

theorem walkChildren_eq : ∀ cs, walkChildren cs = hookSpecForest cs
  | [] => rfl
  | c :: cs => by
    rw [walkChildren, hookSpecForest, walkSome_eq c, walkChildren_eq cs]
    simp
end

/-- C6: one walk invocation fires the hooks in exactly the claimed
order — `init_walk` on the root, the root's recursive trace,
`post_walk_update` on the root; a leaf fires only
`finish_trajectory`; an element with children fires `on_node`, then
per child in reported order `on_child`/recursion/`post_walk_update`,
then one `finish_recursion`. -/
theorem walk_hook_order (root : RTree) :
    walk root none = hookSpec root ∧
    (∀ t : RTree, walk root (some t) = hookSpecSub t) ∧
    (∀ t : RTree, t.children = [] → walk root (some t) = [.finishTrajW t]) := by
  refine ⟨?_, fun t => walkSome_eq t, fun t ht => ?_⟩
  · unfold walk hookSpec
    rw [walkSome_eq]
  · cases t with
    | node l cs =>
      cases cs with
      | nil => rfl
      | cons c cs' => simp [RTree.children] at ht

/-- Witness for C6 on a two-level tree: the full trace in claimed
order. -/
theorem walk_hook_order_witness :
    walk (.node (str "S") [.node (str "a") [], .node (str "b") []]) none =
      [.initW (.node (str "S") [.node (str "a") [], .node (str "b") []]),
       .onNodeW (.node (str "S") [.node (str "a") [], .node (str "b") []]),
       .onChildW (.node (str "a") []),
       .finishTrajW (.node (str "a") []),
       .postWalkW (.node (str "a") []),
       .onChildW (.node (str "b") []),
       .finishTrajW (.node (str "b") []),
       .postWalkW (.node (str "b") []),
       .finishRecW,
       .postWalkW (.node (str "S") [.node (str "a") [], .node (str "b") []])] := by
  have h := (walk_hook_order (.node (str "S") [.node (str "a") [], .node (str "b") []])).1
  rw [h]
  rfl

/-! ## C10: subtree children counts (`SubChildren::get_sub_children`)

`id_tree` node ids are opaque unique identifiers; a node is identified
here by its path from the root (list of child indices), which is
likewise unique.  The `HashMap<NodeId, usize>` is modeled as a
function `List Nat → Option Nat`. -/

/-- Node lookup by path (root = `[]`). -/
def getAt : RTree → List Nat → Option RTree
  | t, [] => some t
  | t, i :: p =>
    match t.children.get? i with
    | some c => getAt c p
    | none => none

mutual
/-- `traverse_post_order_ids`: paths of the subtree rooted at `base`,
children (left to right) before the node. -/
def postPaths : RTree → List Nat → List (List Nat)
  | .node _ cs, base => postPathsF cs base 0 ++ [base]

/-- Post-order paths of a child forest starting at child index `i`. -/
def postPathsF : List RTree → List Nat → Nat → List (List Nat)
  | [], _, _ => []
  | c :: cs, base, i => postPaths c (base ++ [i]) ++ postPathsF cs base (i + 1)
end

/-- The map `HashMap::insert`. -/
def mupdate (m : List Nat → Option Nat) (k : List Nat) (v : Nat) :
    List Nat → Option Nat :=
  fun x => if x = k then some v else m x

/-- The child-count accumulation loop: sequentially add
`map.get(child).unwrap()` for children `0, …, n-1`; a missing child
entry would be an unwrap panic. -/
def sumChildren (m : List Nat → Option Nat) (q : List Nat) : Nat → Option Nat
  | 0 => some 0
  | k + 1 =>
    match sumChildren m q k, m (q ++ [k]) with
    | some s, some v => some (s + v)
    | _, _ => none

/-- One iteration of the `for node_id in post_order_iter` loop:
leaves map to 1; an inner node maps to `account_for_node`
(`!as_leaves as usize`) plus its children's stored counts. -/
def subStep (T : RTree) (asLeaves : Bool) (m : List Nat → Option Nat)
    (q : List Nat) : Except Str (List Nat → Option Nat) :=
  match getAt T q with
  | none => .error (str "NodeIdError")
  | some n =>
    if n.children.isEmpty then .ok (mupdate m q 1)
    else
      match sumChildren m (q : List Nat) n.children.length with
      | some s => .ok (mupdate m q ((if asLeaves then 0 else 1) + s))
      | none => .error (str "missed sub children entry")

/-- The whole loop over the post-order traversal. -/
def runSteps (T : RTree) (asLeaves : Bool) :
    List (List Nat) → (List Nat → Option Nat) → Except Str (List Nat → Option Nat)
  | [], m => .ok m
  | q :: qs, m =>
    match subStep T asLeaves m q with
    | .ok m' => runSteps T asLeaves qs m'
    | .error e => .error e

/-- `SubChildren::get_sub_children` (the tree always has a root in
this model, so the `root_node_id` panic cannot fire). -/
def getSubChildren (T : RTree) (asLeaves : Bool) :
    Except Str (List Nat → Option Nat) :=
  runSteps T asLeaves (postPaths T []) (fun _ => none)

mutual
/-- Number of leaves in a subtree (a leaf counts itself). -/
def countLeaves : RTree → Nat
  | .node _ [] => 1
  | .node _ (c :: cs) => countLeavesF (c :: cs)

def countLeavesF : List RTree → Nat
  | [] => 0
  | c :: cs => countLeaves c + countLeavesF cs
end

mutual
/-- Number of nodes in a subtree, the node itself included. -/
def countNodes : RTree → Nat
  | .node _ cs => 1 + countNodesF cs

def countNodesF : List RTree → Nat
  | [] => 0
  | c :: cs => countNodes c + countNodesF cs
end

/-- The count `get_sub_children` should assign to a node. -/
def specCount (asLeaves : Bool) (t : RTree) : Nat :=
  if asLeaves then countLeaves t else countNodes t

theorem getAt_append (p r : List Nat) (T : RTree) :
    getAt T (p ++ r) = (getAt T p).bind (fun u => getAt u r) := by
  induction p generalizing T with
  | nil => simp [getAt]
  | cons i p ih =>
    simp only [List.cons_append, getAt]
    cases T.children.get? i with
    | none => rfl
    | some c => exact ih c

theorem runSteps_append (T : RTree) (b : Bool) (A B : List (List Nat))
    (m : List Nat → Option Nat) :
    runSteps T b (A ++ B) m =
      match runSteps T b A m with
      | .ok m₁ => runSteps T b B m₁
      | .error e => .error e := by
  induction A generalizing m with
  | nil => rfl
  | cons q A ih =>
    simp only [List.cons_append, runSteps]
    cases subStep T b m q with
    | ok m' => exact ih m'
    | error e => rfl

theorem countLeavesF_eq (cs : List RTree) :
    countLeavesF cs = (cs.map countLeaves).sum := by
  induction cs with
  | nil => rfl
  | cons c cs ih => simp [countLeavesF, ih]

theorem countNodesF_eq (cs : List RTree) :
    countNodesF cs = (cs.map countNodes).sum := by
  induction cs with
  | nil => rfl
  | cons c cs ih => simp [countNodesF, ih]

theorem sumChildren_eq (m : List Nat → Option Nat) (q : List Nat)
    (f : Nat → Nat) :
    ∀ n, (∀ j, j < n → m (q ++ [j]) = some (f j)) →
      sumChildren m q n = some (((List.range n).map f).sum)
  | 0, _ => rfl
  | n + 1, h => by
    rw [sumChildren, sumChildren_eq m q f n (fun j hj => h j (by omega)),
      h n (by omega)]
    simp [List.range_succ]

theorem append_cons_ne_self {base : List Nat} {j : Nat} {p : List Nat} :
    base ++ j :: p ≠ base := by
  intro h
  have h2 := congrArg List.length h
  simp only [List.length_append, List.length_cons] at h2
  omega

theorem map_range_specCount (b : Bool) (cs : List RTree) :
    ((List.range cs.length).map
      (fun j => specCount b (cs.getD j (.node [] [])))).sum =
      (cs.map (specCount b)).sum := by
  congr 1
  apply List.ext_getElem
  · simp
  · intro k h1 h2
    simp only [List.getElem_map, List.getElem_range]
    rw [List.getD_eq_getElem _ _ (by simpa using h2)]

mutual
theorem subTree_run : ∀ (t T : RTree) (b : Bool) (base : List Nat)
    (m : List Nat → Option Nat), getAt T base = some t →
    ∃ m', runSteps T b (postPaths t base) m = .ok m' ∧
      (∀ r t', getAt t r = some t' → m' (base ++ r) = some (specCount b t')) ∧
      (∀ x, (∀ r : List Nat, x ≠ base ++ r) → m' x = m x)
  | .node l cs, T, b, base, m, hbase => by
    obtain ⟨m₁, hrun₁, hprop₁, hframe₁⟩ :=
      forest_run cs T b l cs base 0 m hbase (List.drop_zero cs).symm
    rw [postPaths, runSteps_append, hrun₁]
    cases cs with
    | nil =>
      refine ⟨mupdate m₁ base 1, ?_, ?_, ?_⟩
      · simp only [runSteps, subStep, hbase, RTree.children, List.isEmpty_nil, if_true]
      · intro r t' hga
        cases r with
        | nil =>
          obtain rfl : RTree.node l [] = t' := by simpa [getAt] using hga
          simp only [List.append_nil, mupdate, if_pos rfl]
          cases b <;> simp [specCount, countLeaves, countNodes, countNodesF]
        | cons j p => simp [getAt, RTree.children] at hga
      · intro x hx
        have hne : x ≠ base := by simpa using hx []
        simp only [mupdate, if_neg hne]
        exact hframe₁ x (fun j r _ => hx (j :: r))
    | cons c cs' =>
      have hsum : sumChildren m₁ base (c :: cs').length =
          some (((List.range (c :: cs').length).map
            (fun j => specCount b ((c :: cs').getD j (.node [] [])))).sum) := by
        apply sumChildren_eq
        intro j hj
        have h := hprop₁ j hj (Nat.zero_le j) [] ((c :: cs').get ⟨j, hj⟩) rfl
        rw [List.getD_eq_getElem _ _ hj]
        simpa using h
      set sSum := ((c :: cs').map (specCount b)).sum with hsSum
      have hstep : subStep T b m₁ base =
          .ok (mupdate m₁ base ((if b then 0 else 1) + sSum)) := by
        rw [subStep, hbase]
        simp only [RTree.children, List.isEmpty_cons, Bool.false_eq_true, if_false]
        rw [hsum, map_range_specCount]
      have hspec : (if b then 0 else 1) + sSum = specCount b (.node l (c :: cs')) := by
        cases b with
        | true =>
          simp only [if_true, specCount, countLeaves, Nat.zero_add]
          rw [countLeavesF_eq]
          rfl
        | false =>
          simp only [if_false, specCount, countNodes]
          rw [countNodesF_eq]
          rfl
      refine ⟨mupdate m₁ base ((if b then 0 else 1) + sSum), ?_, ?_, ?_⟩
      · simp only [runSteps, hstep]
      · intro r t' hga
        cases r with
        | nil =>
          obtain rfl : RTree.node l (c :: cs') = t' := by simpa [getAt] using hga
          simp [mupdate, hspec]
        | cons j p =>
          have hmiss : base ++ j :: p ≠ base := append_cons_ne_self
          simp only [mupdate, if_neg hmiss]
          simp only [getAt, RTree.children] at hga
          cases hq : (c :: cs').get? j with
          | none => rw [hq] at hga; cases hga
          | some u =>
            rw [hq] at hga
            obtain ⟨hj, hu⟩ := List.get?_eq_some.mp hq
            have := hprop₁ j hj (Nat.zero_le j) p t' (by rw [hu]; exact hga)
            exact this
      · intro x hx
        have hne : x ≠ base := by simpa using hx []
        simp only [mupdate, if_neg hne]
        exact hframe₁ x (fun j r _ => hx (j :: r))

theorem forest_run : ∀ (ctail : List RTree) (T : RTree) (b : Bool) (l : Str)
    (pcs : List RTree) (base : List Nat) (i : Nat) (m : List Nat → Option Nat),
    getAt T base = some (.node l pcs) → ctail = pcs.drop i →
    ∃ m', runSteps T b (postPathsF ctail base i) m = .ok m' ∧
      (∀ j (hj : j < pcs.length), i ≤ j → ∀ r t',
        getAt (pcs.get ⟨j, hj⟩) r = some t' →
        m' (base ++ j :: r) = some (specCount b t')) ∧
      (∀ x, (∀ j r, i ≤ j → x ≠ base ++ j :: r) → m' x = m x)
  | [], T, b, l, pcs, base, i, m, _, hdrop => by
    refine ⟨m, rfl, ?_, fun _ _ => rfl⟩
    intro j hj hij r t' _
    have : pcs.length ≤ i := by
      have := congrArg List.length hdrop
      simp [List.length_drop] at this
      omega
    omega
  | c :: rest, T, b, l, pcs, base, i, m, hbase, hdrop => by
    have hi : i < pcs.length := by
      by_contra hge
      rw [List.drop_eq_nil_of_le (by omega)] at hdrop
      cases hdrop
    have hsplit : pcs.get ⟨i, hi⟩ :: pcs.drop (i + 1) = c :: rest := by
      rw [hdrop]
      exact (List.drop_eq_getElem_cons hi).symm
    have hc : pcs.get ⟨i, hi⟩ = c := by injection hsplit
    have hrest : pcs.drop (i + 1) = rest := by injection hsplit
    have hq : pcs[i]? = some c := by
      rw [List.getElem?_eq_getElem hi]
      exact congrArg some hc
    have hgetc : getAt T (base ++ [i]) = some c := by
      rw [getAt_append, hbase]
      show getAt (RTree.node l pcs) [i] = some c
      simp [getAt, RTree.children, hq]
    obtain ⟨m₁, hrun₁, hprop₁, hframe₁⟩ := subTree_run c T b (base ++ [i]) m hgetc
    obtain ⟨m', hrun₂, hprop₂, hframe₂⟩ :=
      forest_run rest T b l pcs base (i + 1) m₁ hbase hrest.symm
    refine ⟨m', ?_, ?_, ?_⟩
    · rw [postPathsF, runSteps_append, hrun₁]
      exact hrun₂
    · intro j hj hij r t' hga
      rcases Nat.eq_or_lt_of_le hij with heq | hlt
      · subst heq
        have hkeep : m' (base ++ i :: r) = m₁ (base ++ i :: r) := by
          apply hframe₂
          intro j' r' hij' heq2
          have h3 := (List.append_right_inj base).mp heq2
          injection h3 with h4 _
          omega
        rw [hkeep]
        have hcc : pcs.get ⟨i, hj⟩ = c := hc
        rw [hcc] at hga
        have h5 := hprop₁ r t' hga
        simpa [List.append_assoc] using h5
      · exact hprop₂ j hj hlt r t' hga
    · intro x hx
      rw [hframe₂ x (fun j r hij => hx j r (by omega))]
      apply hframe₁
      intro r
      have := hx i r (Nat.le_refl i)
      simpa [List.append_assoc] using this
end

/-- C10: `get_sub_children` succeeds and returns a map with an entry
for every node of the tree: the number of leaves in the node's subtree
when `as_leaves` is true (each leaf mapped to 1), and the total number
of nodes in its subtree, the node itself included, when `as_leaves` is
false. -/
theorem getSubChildren_spec (T : RTree) (b : Bool) :
    ∃ m, getSubChildren T b = .ok m ∧
      ∀ q t, getAt T q = some t → m q = some (specCount b t) := by
  obtain ⟨m, hrun, hprop, -⟩ := subTree_run T T b [] (fun _ => none) rfl
  refine ⟨m, hrun, fun q t hq => ?_⟩
  have := hprop q t hq
  simpa using this

/-- Witness for C10 on the doc-test tree `(S (0 (1) (2 (3) (4))))`:
the inner node `0` has 3 leaves below it and 5 nodes in its subtree
(itself included). -/
theorem getSubChildren_spec_witness :
    (∃ m, getSubChildren
        (.node (str "S") [.node (str "0") [.node (str "1") [],
          .node (str "2") [.node (str "3") [], .node (str "4") []]]]) true = .ok m ∧
      m [0] = some 3) ∧
    (∃ m, getSubChildren
        (.node (str "S") [.node (str "0") [.node (str "1") [],
          .node (str "2") [.node (str "3") [], .node (str "4") []]]]) false = .ok m ∧
      m [0] = some 5) := by
  constructor
  · obtain ⟨m, hrun, hprop⟩ := getSubChildren_spec
      (.node (str "S") [.node (str "0") [.node (str "1") [],
        .node (str "2") [.node (str "3") [], .node (str "4") []]]]) true
    refine ⟨m, hrun, ?_⟩
    rw [hprop [0] (.node (str "0") [.node (str "1") [],
      .node (str "2") [.node (str "3") [], .node (str "4") []]]) rfl]
    rfl
  · obtain ⟨m, hrun, hprop⟩ := getSubChildren_spec
      (.node (str "S") [.node (str "0") [.node (str "1") [],
        .node (str "2") [.node (str "3") [], .node (str "4") []]]]) false
    refine ⟨m, hrun, ?_⟩
    rw [hprop [0] (.node (str "0") [.node (str "1") [],
      .node (str "2") [.node (str "3") [], .node (str "4") []]]) rfl]
    rfl

/-! ## The bracket constituency parser (`string_2_tree.rs`)

`String2Tree::build` splits the input at the first `" ("`
(`NODE_DELIMITER`), matches the left part against `"(S"`
(`ROOT_DELIMITER`), `"(S)"` (`EMPTY_TREE`) and `"()"` (`NULL_TREE`),
and otherwise counts the closing brackets of the chunk to decide
between the inner-node and the leaf action.  The mutable `id_tree` is
modeled as an `RTree` plus the current parent's path
(`parent_node_id`); inserting under a node appends to its child list,
and `update_parent` walks `n` ancestors up from the freshly inserted
child (`n = 0` leaves the parent unset).  Panics and insertion errors
are modeled as errors. -/

/-- Rust `char::is_whitespace`: the full Unicode `White_Space`
property (U+0009..U+000D, U+0020, U+0085, U+00A0, U+1680,
U+2000..U+200A, U+2028, U+2029, U+202F, U+205F, U+3000). -/
def isWS (c : Char) : Bool :=
  (9 ≤ c.toNat && c.toNat ≤ 13) || c.toNat = 32 || c.toNat = 0x85 ||
  c.toNat = 0xA0 || c.toNat = 0x1680 ||
  (0x2000 ≤ c.toNat && c.toNat ≤ 0x200A) ||
  c.toNat = 0x2028 || c.toNat = 0x2029 || c.toNat = 0x202F ||
  c.toNat = 0x205F || c.toNat = 0x3000

/-- Rust `str::trim`. -/
def trim (s : Str) : Str := ((s.dropWhile isWS).reverse.dropWhile isWS).reverse

/-- Rust `input.split_once(" (")`: split at the first `" ("`. -/
def splitOnce2 : Str → Option (Str × Str)
  | [] => none
  | c :: rest =>
    if c = ' ' ∧ rest.head? = some '(' then some ([], rest.tail)
    else (splitOnce2 rest).map (fun pr => (c :: pr.1, pr.2))

/-- Rust `str::split_once(c)` for a single-character pattern. -/
def splitOnceChar (c : Char) : Str → Option (Str × Str)
  | [] => none
  | a :: rest =>
    if a = c then some ([], rest)
    else (splitOnceChar c rest).map (fun pr => (a :: pr.1, pr.2))

/-- Rust `str::trim_matches(c)`: strip `c` from both ends. -/
def trimMatches (c : Char) (s : Str) : Str :=
  ((s.dropWhile (· = c)).reverse.dropWhile (· = c)).reverse

/-- Rust `str::split(' ')`. -/
def splitSpace : Str → List Str
  | [] => [[]]
  | c :: cs =>
    if c = ' ' then [] :: splitSpace cs
    else
      match splitSpace cs with
      | [] => [[c]]
      | f :: rest => (c :: f) :: rest

/-- Rust `Vec<String>::join(" ")`. -/
def joinSpace : List Str → Str
  | [] => []
  | [f] => f
  | f :: rest => f ++ ' ' :: joinSpace rest

/-- Append a forest as new children of the node at `p` (the shape of
repeated `id_tree` `insert(…, UnderNode(p))` calls); unreachable
invalid paths leave the tree unchanged. -/
def appendForest : RTree → List Nat → List RTree → RTree
  | .node l cs, [], fs => .node l (cs ++ fs)
  | .node l cs, i :: p, fs =>
    .node l (cs.set i (appendForest (cs.getD i (.node [] [])) p fs))

/-- `id_tree` `insert(node, UnderNode(p))`: `none` models the
`NodeIdError` of an invalid parent id. -/
def insertAt : RTree → List Nat → RTree → Option RTree
  | .node l cs, [], c => some (.node l (cs ++ [c]))
  | .node l cs, i :: p, c =>
    match cs.get? i with
    | some ci => (insertAt ci p c).map (fun ci' => .node l (cs.set i ci'))
    | none => none

/-- Number of children of the node at `p` (for the path of a fresh
child inserted under `p`). -/
def childCount (T : RTree) (p : List Nat) : Nat :=
  match getAt T p with
  | some n => n.children.length
  | none => 0

/-- The parser state: the tree built so far and `parent_node_id`. -/
structure S2TState where
  tree : Option RTree
  parent : Option (List Nat)

/-- `String2Tree::build`, with explicit fuel standing for the Rust
recursion (any fuel exceeding the input length gives the definitive
answer; the fuel branch is unreachable then). -/
def s2tBuildF : Nat → Str → S2TState → Except Str S2TState
  | 0, _, _ => .error (str "recursion fuel exhausted")
  | fuel + 1, input, st =>
    if input = [] then .ok st
    else
      let pr := splitOnce2 input
      let left := match pr with | some (l, _) => trim l | none => trim input
      let right := match pr with | some (_, r) => trim r | none => []
      if left = str "(S" ∨ left = str "(S)" then
        -- `insert(_, AsRoot)`: an existing root becomes the new root's child
        let newTree : RTree :=
          match st.tree with
          | none => .node (str "S") []
          | some t => .node (str "S") [t]
        s2tBuildF fuel right { tree := some newTree, parent := some [] }
      else if left = str "()" then
        .error (str "The input tree is null and not valid")
      else
        match st.parent, st.tree with
        | none, _ => .error (str "The input did not start with root")
        | some _, none => .error (str "could not insert child under parent")
        | some p, some T =>
          let closers := left.count ')'
          if closers > 0 then
            let sv := splitSpace (trimMatches ')' left)
            if sv.length = 1 ∨ sv.length = 2 then
              let upper := trim (sv.getD 0 [])
              let child : RTree :=
                if sv.length = 2 then .node upper [.node (trim (sv.getD 1 [])) []]
                else .node upper []
              match insertAt T p child with
              | none => .error (str "could not insert child under parent")
              | some T' =>
                let childPath := p ++ [childCount T p]
                let closers' := if right = [] then closers - 1 else closers
                if closers' = 0 then
                  s2tBuildF fuel right { tree := some T', parent := none }
                else if closers' ≤ childPath.length then
                  s2tBuildF fuel right
                    { tree := some T',
                      parent := some (childPath.take (childPath.length - closers')) }
                else .error (str "inconsistent number of closers and ancestors for node id")
            else .error (str "leaf input has an invalid structure")
          else
            if right = [] then .error (str "Did not find trailing closers")
            else
              match insertAt T p (.node left []) with
              | none => .error (str "could not insert child under parent")
              | some T' =>
                s2tBuildF fuel right
                  { tree := some T', parent := some (p ++ [childCount T p]) }

/-- `String2Tree::build` from the fresh `new()` state. -/
def string2treeBuild (input : Str) : Except Str S2TState :=
  s2tBuildF (input.length + 1) input ⟨none, none⟩

/-! ## The constituency serializer (`tree_2_string.rs`) -/

mutual
/-- The `Tree2String` walk on one element, threading the accumulator
string: `on_node` emits `sep ++ "(" ++ label`, `finish_trajectory`
emits `sep ++ "(" ++ label ++ ")"` for a leaf, `finish_recursion`
emits `")"`; `sep` is a space unless the accumulator is empty. -/
def serWalk : RTree → Str → Str
  | .node l cs, acc =>
    let sep : Str := if acc = [] then [] else [' ']
    match cs with
    | [] => acc ++ sep ++ '(' :: (l ++ [')'])
    | c :: cs' => serForestW (c :: cs') (acc ++ sep ++ '(' :: l) ++ [')']

def serForestW : List RTree → Str → Str
  | [], acc => acc
  | c :: cs, acc => serForestW cs (serWalk c acc)
end

/-- `Tree2String::build` output (the singular-mode constituency). -/
def tree2string (t : RTree) : Str := serWalk t []

/-- One chunk of `get_constituency`'s inverse transformation: a chunk
that starts with `(` and ends with `)` loses its first bracket pair's
opening and one closing level. -/
def invChunk (x : Str) : Str :=
  if x.head? = some '(' ∧ x.getLast? = some ')' then
    match splitOnceChar ')' x with
    | some (l, r) =>
      match splitOnceChar '(' l with
      | some (_, lab) => lab ++ r
      | none => x
    | none => x
  else x

/-- `Tree2String::get_constituency` with `inverse = true`. -/
def inverseConstituency (s : Str) : Str :=
  joinSpace ((splitSpace s).map invChunk)

/-! ## Pre-order labels (C7) -/

mutual
/-- `traverse_pre_order` label sequence. -/
def preOrder : RTree → List Str
  | .node l cs => l :: preOrderF cs

def preOrderF : List RTree → List Str
  | [] => []
  | c :: cs => preOrder c ++ preOrderF cs
end

/-- Parse a constituency string and report the pre-order labels of the
built tree. -/
def parsedPreOrder (s : Str) : Except Str (List Str) :=
  match string2treeBuild s with
  | .ok ⟨some t, _⟩ => .ok (preOrder t)
  | .ok ⟨none, _⟩ => .error (str "tree is empty")
  | .error e => .error e

/-- C7: parsing the doc example yields the expected pre-order label
sequence. -/
theorem parse_example_preorder :
    parsedPreOrder
      (str "(S (NP (det The) (N people)) (VP (V watch) (NP (det the) (N game))))") =
    .ok [str "S", str "NP", str "det", str "The", str "N", str "people",
         str "VP", str "V", str "watch", str "NP", str "det", str "the",
         str "N", str "game"] := by
  rfl

/-! ## C8: consecutive open brackets -/

/-- C8 counterexample: `"(S ((0) (1))"` contains the
whitespace-delimited chunk `"((0)"` with consecutive open brackets,
yet the parse does not abort with the claimed error (it does not abort
at all). -/
theorem consecutive_opens_counterexample :
    string2treeBuild (str "(S ((0) (1))") ≠
      .error (str "invalid input structure, consecutive open brackets") := by
  have h : string2treeBuild (str "(S ((0) (1))") =
      .ok ⟨some (.node (str "S") [.node (str "(0") [], .node (str "1") []]), some []⟩ := rfl
  rw [h]
  intro hc
  exact Except.noConfusion hc

/-- C8 (amended): the parser has no consecutive-open-bracket check;
the `" ("` split consumes one bracket and the surplus bracket is
absorbed into a node label, so `"(S ((0) (1))"` parses successfully
into a tree with labels `S`, `(0`, `1`. -/
theorem consecutive_opens_amended :
    string2treeBuild (str "(S ((0) (1))") =
      .ok ⟨some (.node (str "S") [.node (str "(0") [], .node (str "1") []]), some []⟩ ∧
    parsedPreOrder (str "(S ((0) (1))") = .ok [str "S", str "(0", str "1"] :=
  ⟨rfl, rfl⟩

/-! ## C2: the constituency round trip

The round trip `tree2string (string2tree S) = S` is proved for every
string `S` that is the (singular-mode) serialization of a
*good* tree: labels nonempty and free of brackets and of every
character of Rust `char::is_whitespace` (which `str::trim` strips) —
i.e. exactly the canonical single-leaf bracketed strings — whose root
is labeled `S` (the parser only accepts `"(S"`). -/

/-- Characters allowed in labels of round-trippable trees: no
brackets and no Unicode whitespace. -/
def goodChar (c : Char) : Bool :=
  !(c = '(' || c = ')' || isWS c)

/-- A label that serializes and re-parses as itself. -/
def goodLabel (l : Str) : Bool := !l.isEmpty && l.all goodChar

mutual
def goodTree : RTree → Bool
  | .node l cs => goodLabel l && goodForest cs

def goodForest : List RTree → Bool
  | [] => true
  | c :: cs => goodTree c && goodForest cs
end

def goodLevels : List (List RTree) → Bool
  | [] => true
  | fs :: K => goodForest fs && goodLevels K

mutual
/-- Serialized fragment of a non-root subtree, without its leading
`" ("` (what remains after the parser consumed the delimiter). -/
def fragTail : RTree → Str
  | .node l [] => l ++ [')']
  | .node l (c :: cs) => l ++ (serFragF (c :: cs) ++ [')'])

/-- Serialized fragments of a forest of later siblings. -/
def serFragF : List RTree → Str
  | [] => []
  | c :: cs => (' ' :: '(' :: fragTail c) ++ serFragF cs
end

/-- Remaining input contributed by the pending sibling forests of the
focus node's ancestors, each level closed by one `)`. -/
def rem : List (List RTree) → Str
  | [] => []
  | fs :: K => serFragF fs ++ ')' :: rem K

/-- Final tree after inserting each pending forest at its level and
moving the focus one ancestor up per level. -/
def finalIns : RTree → List Nat → List (List RTree) → RTree
  | T, _, [] => T
  | T, p, fs :: K => finalIns (appendForest T p fs) (p.take (p.length - 1)) K

mutual
def sizeT : RTree → Nat
  | .node _ cs => 1 + sizeF cs

def sizeF : List RTree → Nat
  | [] => 0
  | c :: cs => sizeT c + sizeF cs
end

def sizeK : List (List RTree) → Nat
  | [] => 0
  | fs :: K => sizeF fs + sizeK K

theorem sizeT_pos (t : RTree) : 1 ≤ sizeT t := by
  cases t with
  | node l cs => simp [sizeT]

/-! ### String lemmas -/

theorem splitOnce2_append {l : Str} (r : Str) (hl : ' ' ∉ l) :
    splitOnce2 (l ++ ' ' :: '(' :: r) = some (l, r) := by
  induction l with
  | nil => simp [splitOnce2]
  | cons c l ih =>
    have hc : ¬ c = ' ' := fun h => hl (by simp [h])
    simp only [List.cons_append, splitOnce2, hc, false_and, if_false, List.append_eq]
    rw [ih (fun h => hl (by simp [h]))]
    rfl

theorem splitOnce2_none {s : Str} (hs : ' ' ∉ s) : splitOnce2 s = none := by
  induction s with
  | nil => rfl
  | cons c s ih =>
    have hc : ¬ c = ' ' := fun h => hs (by simp [h])
    simp only [splitOnce2, hc, false_and, if_false]
    rw [ih (fun h => hs (by simp [h]))]
    rfl

theorem dropWhile_eq_self_of_head {p : Char → Bool} {s : Str}
    (h : ∀ c, s.head? = some c → p c = false) : s.dropWhile p = s := by
  cases s with
  | nil => rfl
  | cons a s => simp [List.dropWhile_cons, h a rfl]

theorem trim_eq_self {s : Str}
    (h1 : ∀ c, s.head? = some c → isWS c = false)
    (h2 : ∀ c, s.getLast? = some c → isWS c = false) : trim s = s := by
  unfold trim
  rw [dropWhile_eq_self_of_head h1]
  rw [dropWhile_eq_self_of_head (by
    intro c hc
    rw [List.head?_reverse] at hc
    exact h2 c hc)]
  exact List.reverse_reverse s

theorem goodLabel_props {l : Str} (h : goodLabel l = true) :
    l ≠ [] ∧ (∀ c ∈ l, goodChar c = true) := by
  unfold goodLabel at h
  simp only [Bool.and_eq_true, Bool.not_eq_true', List.isEmpty_eq_false_iff_exists_mem,
    List.all_eq_true] at h
  obtain ⟨h1, h2⟩ := h
  constructor
  · rcases h1 with ⟨x, hx⟩
    intro hnil
    rw [hnil] at hx
    cases hx
  · exact h2

theorem goodChar_not_ws {c : Char} (h : goodChar c = true) : isWS c = false := by
  unfold goodChar at h
  simp only [Bool.not_eq_true', Bool.or_eq_false_iff] at h
  exact h.2

theorem goodChar_props {c : Char} (h : goodChar c = true) :
    c ≠ ' ' ∧ c ≠ '(' ∧ c ≠ ')' := by
  unfold goodChar at h
  simp only [Bool.not_eq_true', Bool.or_eq_false_iff, decide_eq_false_iff_not] at h
  obtain ⟨⟨hop, hcl⟩, hws⟩ := h
  refine ⟨?_, hop, hcl⟩
  intro hsp
  subst hsp
  exact absurd hws (by decide)

theorem mem_of_head? {s : Str} {c : Char} (h : s.head? = some c) : c ∈ s := by
  cases s with
  | nil => cases h
  | cons a s =>
    obtain rfl : a = c := by simpa using h
    simp

theorem mem_of_getLast? {s : Str} {c : Char} (h : s.getLast? = some c) : c ∈ s := by
  induction s with
  | nil => cases h
  | cons a s ih =>
    cases s with
    | nil =>
      obtain rfl : a = c := by simpa using h
      simp
    | cons b s' =>
      rw [List.getLast?_cons_cons] at h
      simp [ih h]

theorem head?_append_left {A : Str} (B : Str) (hA : A ≠ []) :
    (A ++ B).head? = A.head? := by
  cases A with
  | nil => exact absurd rfl hA
  | cons a A => rfl

theorem getLast?_append_right {A B : Str} (hB : B ≠ []) :
    (A ++ B).getLast? = B.getLast? := by
  induction A with
  | nil => rfl
  | cons a A ih =>
    rw [List.cons_append]
    cases hAB : A ++ B with
    | nil =>
      rcases List.append_eq_nil.mp hAB with ⟨-, rfl⟩
      exact absurd rfl hB
    | cons x xs =>
      rw [hAB] at ih
      rw [List.getLast?_cons_cons]
      exact ih

/-- No space occurs in a good label followed by a closer run. -/
theorem chunk_no_space {l : Str} (m : Nat) (h : goodLabel l = true) :
    ' ' ∉ l ++ List.replicate m ')' := by
  intro hm
  rcases List.mem_append.mp hm with hm | hm
  · exact ((goodChar_props ((goodLabel_props h).2 _ hm)).1) rfl
  · have := List.eq_of_mem_replicate hm
    cases this

theorem chunk_no_open {l : Str} (m : Nat) (h : goodLabel l = true) :
    '(' ∉ l ++ List.replicate m ')' := by
  intro hm
  rcases List.mem_append.mp hm with hm | hm
  · exact ((goodChar_props ((goodLabel_props h).2 _ hm)).2.1) rfl
  · have := List.eq_of_mem_replicate hm
    cases this

theorem chunk_no_close_in_label {l : Str} (h : goodLabel l = true) : ')' ∉ l := by
  intro hm
  exact ((goodChar_props ((goodLabel_props h).2 _ hm)).2.2) rfl

/-- Every character of a good-label chunk is non-whitespace, so `trim`
is the identity on it. -/
theorem trim_chunk {l : Str} (m : Nat) (h : goodLabel l = true) :
    trim (l ++ List.replicate m ')') = l ++ List.replicate m ')' := by
  have hmem : ∀ c ∈ l ++ List.replicate m ')', isWS c = false := by
    intro c hc
    rcases List.mem_append.mp hc with hc | hc
    · exact goodChar_not_ws ((goodLabel_props h).2 _ hc)
    · rw [List.eq_of_mem_replicate hc]
      rfl
  exact trim_eq_self (fun c hc => hmem c (mem_of_head? hc))
    (fun c hc => hmem c (mem_of_getLast? hc))

theorem count_chunk {l : Str} (m : Nat) (h : goodLabel l = true) :
    (l ++ List.replicate m ')').count ')' = m := by
  rw [List.count_append]
  rw [List.count_eq_zero.mpr (chunk_no_close_in_label h)]
  simp

theorem dropWhile_replicate_append {p : Char → Bool} {c : Char} (hp : p c = true)
    (m : Nat) (s : Str) :
    (List.replicate m c ++ s).dropWhile p = s.dropWhile p := by
  induction m with
  | zero => rfl
  | succ m ih => simp [List.replicate_succ, List.dropWhile_cons, hp, ih]

theorem trimMatches_chunk {l : Str} (m : Nat) (h : goodLabel l = true) :
    trimMatches ')' (l ++ List.replicate m ')') = l := by
  have hl := (goodLabel_props h).1
  have hno : ')' ∉ l := chunk_no_close_in_label h
  have h1 : (l ++ List.replicate m ')').dropWhile (fun x => decide (x = ')')) =
      l ++ List.replicate m ')' := by
    apply dropWhile_eq_self_of_head
    intro c hc
    rw [head?_append_left _ hl] at hc
    simp only [decide_eq_false_iff_not]
    intro heq
    exact hno (heq ▸ mem_of_head? hc)
  have h2 : (l ++ List.replicate m ')').reverse =
      List.replicate m ')' ++ l.reverse := by
    rw [List.reverse_append, List.reverse_replicate]
  have h4 : l.reverse.dropWhile (fun x => decide (x = ')')) = l.reverse := by
    apply dropWhile_eq_self_of_head
    intro c hc
    rw [List.head?_reverse] at hc
    simp only [decide_eq_false_iff_not]
    intro heq
    exact hno (heq ▸ mem_of_getLast? hc)
  unfold trimMatches
  rw [h1, h2, dropWhile_replicate_append (by simp) m l.reverse, h4,
    List.reverse_reverse]

theorem splitSpace_single {l : Str} (hs : ' ' ∉ l) : splitSpace l = [l] := by
  induction l with
  | nil => rfl
  | cons c l ih =>
    have hc : ¬ c = ' ' := fun h => hs (by simp [h])
    have := ih (fun h => hs (by simp [h]))
    simp [splitSpace, hc, this]

theorem ne_root_forms {s : Str} (h : '(' ∉ s) :
    s ≠ str "(S" ∧ s ≠ str "(S)" ∧ s ≠ str "()" := by
  refine ⟨fun heq => h ?_, fun heq => h ?_, fun heq => h ?_⟩ <;>
    (rw [heq]; decide)

theorem remClosed : ∀ K, rem K = [] ∨ (rem K).getLast? = some ')'
  | [] => Or.inl rfl
  | fs :: K => by
    right
    rw [rem]
    rcases remClosed K with h | h
    · rw [h]
      rw [show (serFragF fs ++ [')'] : Str) = serFragF fs ++ [')'] from rfl]
      exact List.getLast?_concat _
    · have hne : rem K ≠ [] := by
        intro h0
        rw [h0] at h
        cases h
      rw [show (serFragF fs ++ ')' :: rem K : Str) = (serFragF fs ++ [')']) ++ rem K by simp]
      rw [getLast?_append_right hne]
      exact h

/-- Any string of the form `A ++ ')' :: rem K` ends in a closer. -/
theorem closer_end (A : Str) (K : List (List RTree)) :
    (A ++ ')' :: rem K).getLast? = some ')' := by
  rcases remClosed K with h | h
  · have hne : rem K = [] := h
    rw [hne]
    exact List.getLast?_concat _
  · have hne : rem K ≠ [] := by
      intro h0
      rw [h0] at h
      cases h
    rw [show (A ++ ')' :: rem K : Str) = (A ++ [')']) ++ rem K by simp]
    rw [getLast?_append_right hne]
    exact h

theorem rem_replicate_append (e : Nat) (X : List (List RTree)) :
    rem (List.replicate e [] ++ X) = List.replicate e ')' ++ rem X := by
  induction e with
  | zero => rfl
  | succ e ih => simp [List.replicate_succ, rem, serFragF, ih]

theorem goodLevels_replicate_append {e : Nat} {X : List (List RTree)}
    (h : goodLevels (List.replicate e [] ++ X) = true) : goodLevels X = true := by
  induction e with
  | zero => exact h
  | succ e ih =>
    apply ih
    rw [List.replicate_succ, List.cons_append, goodLevels] at h
    simpa [goodForest] using h

theorem sizeK_replicate_append (e : Nat) (X : List (List RTree)) :
    sizeK (List.replicate e [] ++ X) = sizeK X := by
  induction e with
  | zero => rfl
  | succ e ih => simp [List.replicate_succ, sizeK, sizeF, ih]

theorem popLevels : ∀ K : List (List RTree), ∃ e K',
    K = List.replicate e [] ++ K' ∧
    (K' = [] ∨ ∃ u us K'', K' = (u :: us) :: K'')
  | [] => ⟨0, [], rfl, Or.inl rfl⟩
  | [] :: K => by
    obtain ⟨e, K', hK, halt⟩ := popLevels K
    exact ⟨e + 1, K', by rw [List.replicate_succ, List.cons_append, hK], halt⟩
  | (u :: us) :: K => ⟨0, (u :: us) :: K, rfl, Or.inr ⟨u, us, K, rfl⟩⟩

/-! ### Tree-operation lemmas -/

theorem getD_eq_of_get? {cs : List RTree} {i : Nat} {ci : RTree}
    (h : cs.get? i = some ci) (d : RTree) : cs.getD i d = ci := by
  obtain ⟨hi, hci⟩ := List.get?_eq_some.mp h
  rw [List.getD_eq_getElem _ _ hi]
  exact hci

theorem getD_set_self {cs : List RTree} {i : Nat} (x d : RTree)
    (h : i < cs.length) : (cs.set i x).getD i d = x := by
  rw [List.getD_eq_getElem _ _ (by simpa using h)]
  rw [List.getElem_set]
  simp

theorem insertAt_eq : ∀ (p : List Nat) (T c : RTree) {n : RTree},
    getAt T p = some n → insertAt T p c = some (appendForest T p [c])
  | [], .node l cs, c, n, _ => rfl
  | i :: p, .node l cs, c, n, h => by
    simp only [getAt, RTree.children] at h
    cases hq : cs.get? i with
    | none => rw [hq] at h; cases h
    | some ci =>
      rw [hq] at h
      simp only [insertAt, hq, appendForest]
      rw [insertAt_eq p ci c h]
      rw [getD_eq_of_get? hq]
      rfl

theorem getAt_appendForest_self : ∀ (p : List Nat) (T : RTree) (a : Str)
    (as fs : List RTree), getAt T p = some (.node a as) →
    getAt (appendForest T p fs) p = some (.node a (as ++ fs))
  | [], T, a, as, fs, h => by
    obtain rfl : T = .node a as := by simpa [getAt] using h
    simp [appendForest, getAt]
  | i :: p, .node l cs, a, as, fs, h => by
    simp only [getAt, RTree.children] at h
    cases hq : cs.get? i with
    | none => rw [hq] at h; cases h
    | some ci =>
      rw [hq] at h
      obtain ⟨hi, -⟩ := List.get?_eq_some.mp hq
      simp only [appendForest, getAt, RTree.children]
      rw [getD_eq_of_get? hq]
      rw [List.get?_set_eq_of_lt _ hi]
      exact getAt_appendForest_self p ci a as fs h

theorem getAt_new_child {p : List Nat} {T : RTree} {a : Str} {as : List RTree}
    (x : RTree) (h : getAt T p = some (.node a as)) :
    getAt (appendForest T p [x]) (p ++ [as.length]) = some x := by
  rw [getAt_append]
  rw [getAt_appendForest_self p T a as [x] h]
  show getAt (.node a (as ++ [x])) [as.length] = some x
  simp only [getAt, RTree.children]
  rw [List.get?_concat_length]

theorem appendForest_append : ∀ (p : List Nat) (T : RTree) {n : RTree}
    (xs ys : List RTree), getAt T p = some n →
    appendForest (appendForest T p xs) p ys = appendForest T p (xs ++ ys)
  | [], .node l cs, n, xs, ys, _ => by simp [appendForest]
  | i :: p, .node l cs, n, xs, ys, h => by
    simp only [getAt, RTree.children] at h
    cases hq : cs.get? i with
    | none => rw [hq] at h; cases h
    | some ci =>
      rw [hq] at h
      obtain ⟨hi, -⟩ := List.get?_eq_some.mp hq
      simp only [appendForest]
      rw [getD_eq_of_get? hq]
      rw [getD_set_self _ _ hi]
      rw [appendForest_append p ci xs ys h]
      rw [List.set_set]

theorem getD_concat_length (as : List RTree) (x d : RTree) :
    (as ++ [x]).getD as.length d = x := by
  rw [List.getD_eq_getElem _ _ (by simp)]
  exact List.getElem_concat_length as x as.length rfl (by simp)

theorem set_concat_length : ∀ (as : List RTree) (x y : RTree),
    (as ++ [x]).set as.length y = as ++ [y]
  | [], x, y => rfl
  | a :: as, x, y => by
    simp only [List.cons_append, List.length_cons, List.set, List.append_eq]
    rw [set_concat_length as x y]

theorem appendForest_child : ∀ (p : List Nat) (T : RTree) (a : Str)
    (as : List RTree) (l : Str) (ds fs : List RTree),
    getAt T p = some (.node a as) →
    appendForest (appendForest T p [.node l ds]) (p ++ [as.length]) fs =
      appendForest T p [.node l (ds ++ fs)]
  | [], T, a, as, l, ds, fs, h => by
    obtain rfl : T = .node a as := by simpa [getAt] using h
    simp only [appendForest, List.nil_append]
    rw [getD_concat_length]
    rw [show appendForest (.node l ds) [] fs = .node l (ds ++ fs) from rfl]
    rw [set_concat_length]
  | i :: p, .node l' cs, a, as, l, ds, fs, h => by
    simp only [getAt, RTree.children] at h
    cases hq : cs.get? i with
    | none => rw [hq] at h; cases h
    | some ci =>
      rw [hq] at h
      obtain ⟨hi, -⟩ := List.get?_eq_some.mp hq
      simp only [appendForest, List.cons_append, List.append_eq]
      rw [getD_eq_of_get? hq]
      rw [getD_set_self _ _ hi]
      rw [appendForest_child p ci a as l ds fs h]
      rw [List.set_set]

theorem getAt_take_isSome {T : RTree} {p : List Nat} {n : RTree}
    (h : getAt T p = some n) (k : Nat) :
    (getAt T (p.take k)).isSome = true := by
  have hsplit := getAt_append (p.take k) (p.drop k) T
  rw [List.take_append_drop] at hsplit
  rw [h] at hsplit
  cases hg : getAt T (p.take k) with
  | none => rw [hg] at hsplit; cases hsplit
  | some u => simp

theorem getAt_appendForest_prefix : ∀ (q p : List Nat) (T : RTree)
    (fs : List RTree), q <+: p → (getAt T q).isSome = true →
    (getAt (appendForest T p fs) q).isSome = true
  | [], p, T, fs, _, _ => by
    cases hT : appendForest T p fs <;> simp [getAt]
  | j :: q', p, T, fs, hpre, hsome => by
    obtain ⟨rest, hp⟩ := hpre
    subst hp
    cases T with
    | node l cs =>
      simp only [getAt, RTree.children] at hsome
      cases hq : cs.get? j with
      | none => rw [hq] at hsome; cases hsome
      | some cj =>
        rw [hq] at hsome
        obtain ⟨hj, -⟩ := List.get?_eq_some.mp hq
        rw [show (j :: q') ++ rest = j :: (q' ++ rest) from rfl]
        simp only [appendForest, getAt, RTree.children]
        rw [getD_eq_of_get? hq]
        rw [List.get?_set_eq_of_lt _ hj]
        exact getAt_appendForest_prefix q' (q' ++ rest) cj fs ⟨rest, rfl⟩ hsome

theorem appendForest_nil : ∀ (p : List Nat) (T : RTree), appendForest T p [] = T
  | [], .node l cs => by simp [appendForest]
  | i :: p, .node l cs => by
    simp only [appendForest]
    rw [appendForest_nil p]
    congr 1
    apply List.ext_getElem (by simp)
    intro j h1 h2
    rw [List.getElem_set]
    split
    · rename_i hij
      subst hij
      rw [List.getD_eq_getElem _ _ (by simpa using h1)]
    · rfl

theorem finalIns_replicate : ∀ (e : Nat) (X : RTree) (q : List Nat),
    finalIns X q (List.replicate e []) = X
  | 0, X, q => rfl
  | e + 1, X, q => by
    rw [List.replicate_succ, finalIns, appendForest_nil]
    exact finalIns_replicate e X _

theorem finalIns_replicate_append : ∀ (e : Nat) (X : RTree) (q : List Nat)
    (Y : List (List RTree)),
    finalIns X q (List.replicate e [] ++ Y) = finalIns X (q.take (q.length - e)) Y
  | 0, X, q, Y => by simp [List.take_length]
  | e + 1, X, q, Y => by
    rw [List.replicate_succ, List.cons_append, finalIns, appendForest_nil]
    rw [finalIns_replicate_append e X (q.take (q.length - 1)) Y]
    congr 1
    rw [List.take_take, List.length_take]
    congr 1
    omega

/-! ### Serializer–fragment correspondence -/

mutual
theorem serWalk_frag : ∀ (t : RTree) (acc : Str), acc ≠ [] →
    serWalk t acc = acc ++ (' ' :: '(' :: fragTail t)
  | .node l [], acc, hacc => by
    simp only [serWalk, fragTail]
    rw [if_neg hacc]
    simp
  | .node l (c :: cs), acc, hacc => by
    simp only [serWalk, fragTail]
    rw [if_neg hacc]
    rw [serForestW_frag (c :: cs) (acc ++ [' '] ++ '(' :: l) (by simp)]
    simp

theorem serForestW_frag : ∀ (cs : List RTree) (acc : Str), acc ≠ [] →
    serForestW cs acc = acc ++ serFragF cs
  | [], acc, _ => by simp [serForestW, serFragF]
  | c :: cs, acc, hacc => by
    rw [serForestW, serWalk_frag c acc hacc,
      serForestW_frag cs _ (by simp)]
    simp [serFragF]
end

theorem tree2string_leaf (l : Str) :
    tree2string (.node l []) = '(' :: (l ++ [')']) := by
  simp [tree2string, serWalk]

theorem tree2string_node (l : Str) (c : RTree) (cs : List RTree) :
    tree2string (.node l (c :: cs)) = '(' :: (l ++ (serFragF (c :: cs) ++ [')'])) := by
  rw [show tree2string (.node l (c :: cs)) =
    serForestW (c :: cs) ('(' :: l) ++ [')'] from rfl]
  rw [serForestW_frag (c :: cs) ('(' :: l) (by simp)]
  simp

/-! ### Parser chunk-evaluation lemmas -/

theorem label_no_space {l : Str} (h : goodLabel l = true) : ' ' ∉ l := by
  have := chunk_no_space 0 h
  simpa using this

theorem label_no_open {l : Str} (h : goodLabel l = true) : '(' ∉ l := by
  have := chunk_no_open 0 h
  simpa using this

theorem trim_label {l : Str} (h : goodLabel l = true) : trim l = l := by
  have := trim_chunk 0 h
  simpa using this

theorem goodTree_parts {l : Str} {cs : List RTree}
    (h : goodTree (.node l cs) = true) :
    goodLabel l = true ∧ goodForest cs = true := by
  rw [goodTree, Bool.and_eq_true] at h
  exact h

theorem goodForest_parts {c : RTree} {cs : List RTree}
    (h : goodForest (c :: cs) = true) :
    goodTree c = true ∧ goodForest cs = true := by
  rw [goodForest, Bool.and_eq_true] at h
  exact h

theorem goodLevels_parts {fs : List RTree} {K : List (List RTree)}
    (h : goodLevels (fs :: K) = true) :
    goodForest fs = true ∧ goodLevels K = true := by
  rw [goodLevels, Bool.and_eq_true] at h
  exact h

theorem childCount_eq {T : RTree} {p : List Nat} {a : Str} {as : List RTree}
    (h : getAt T p = some (.node a as)) : childCount T p = as.length := by
  unfold childCount
  rw [h]
  rfl

/-- Processing an inner-node chunk `l` (no closers, followed by a
`" ("` delimiter): create a node labeled `l` under the parent and
descend into it. -/
theorem eval_label_chunk (f : Nat) (l R : Str) (T : RTree) (p : List Nat)
    (a : Str) (as : List RTree) (hl : goodLabel l = true)
    (hfoc : getAt T p = some (.node a as)) (hR : trim R = R) (hRne : R ≠ []) :
    s2tBuildF (f + 1) (l ++ ' ' :: '(' :: R) ⟨some T, some p⟩ =
      s2tBuildF f R ⟨some (appendForest T p [.node l []]), some (p ++ [as.length])⟩ := by
  have hsplit : splitOnce2 (l ++ ' ' :: '(' :: R) = some (l, R) :=
    splitOnce2_append R (label_no_space hl)
  have hne : (l ++ ' ' :: '(' :: R : Str) ≠ [] := by simp
  have htl : trim l = l := trim_label hl
  obtain ⟨h1, h2, h3⟩ := ne_root_forms (label_no_open hl)
  have hcount : l.count ')' = 0 :=
    List.count_eq_zero.mpr (chunk_no_close_in_label hl)
  have hins := insertAt_eq p T (.node l []) hfoc
  have hcc : childCount T p = as.length := childCount_eq hfoc
  simp only [s2tBuildF, hne, if_false, hsplit, htl, hR, h1, h2, h3, or_self,
    or_false, false_or, if_false, hcount, gt_iff_lt, Nat.lt_irrefl, hRne,
    hins, hcc]

/-- Processing a leaf chunk `l ++ ")"^m` (`m ≥ 1` closers) in the
middle of the input: insert a leaf labeled `l` under the parent, then
move the parent `m` ancestors up from the fresh leaf. -/
theorem eval_leaf_chunk (f : Nat) (l R : Str) (m : Nat) (T : RTree)
    (p : List Nat) (a : Str) (as : List RTree) (hl : goodLabel l = true)
    (hfoc : getAt T p = some (.node a as)) (hR : trim R = R) (hRne : R ≠ [])
    (hm : 1 ≤ m) (hcl : m ≤ p.length + 1) :
    s2tBuildF (f + 1) ((l ++ List.replicate m ')') ++ ' ' :: '(' :: R)
        ⟨some T, some p⟩ =
      s2tBuildF f R ⟨some (appendForest T p [.node l []]),
        some ((p ++ [as.length]).take (p.length + 1 - m))⟩ := by
  have hsplit : splitOnce2 ((l ++ List.replicate m ')') ++ ' ' :: '(' :: R) =
      some (l ++ List.replicate m ')', R) :=
    splitOnce2_append R (chunk_no_space m hl)
  have hne : ((l ++ List.replicate m ')') ++ ' ' :: '(' :: R : Str) ≠ [] := by simp
  have htl := trim_chunk m hl
  obtain ⟨h1, h2, h3⟩ := ne_root_forms (chunk_no_open m hl)
  have hcount := count_chunk m hl
  have hsv : splitSpace (trimMatches ')' (l ++ List.replicate m ')')) = [l] := by
    rw [trimMatches_chunk m hl]
    exact splitSpace_single (label_no_space hl)
  have hins := insertAt_eq p T (.node l []) hfoc
  have hcc : childCount T p = as.length := childCount_eq hfoc
  have hm0 : ¬ m = 0 := by omega
  have hlen2 : (p ++ [as.length]).length = p.length + 1 := by simp
  have hle : m ≤ (p ++ [as.length] : List Nat).length := by
    rw [hlen2]; exact hcl
  have htr : trim l = l := trim_label hl
  simp only [s2tBuildF, hne, if_false, hsplit, htl, hR, h1, h2, h3, or_self,
    or_false, false_or, hcount, gt_iff_lt, hm, Nat.lt_of_lt_of_le
      (Nat.zero_lt_one) hm, if_true, hsv, List.length_cons, List.length_nil,
    hRne, hm0, hins, hcc, hle, htr, hlen2]
  simp [htr, hins, hcl]

/-- Processing the final chunk `l ++ ")"^m` (`m ≥ 2`, nothing follows):
insert the leaf, decrement the closer count (last chunk), walk the
ancestors up, and terminate successfully. -/
theorem eval_final_chunk (f : Nat) (l : Str) (m : Nat) (T : RTree)
    (p : List Nat) (a : Str) (as : List RTree) (hl : goodLabel l = true)
    (hfoc : getAt T p = some (.node a as)) (hm1 : 2 ≤ m)
    (hm2 : m - 1 ≤ p.length + 1) (hf : 1 ≤ f) :
    s2tBuildF (f + 1) (l ++ List.replicate m ')') ⟨some T, some p⟩ =
      .ok ⟨some (appendForest T p [.node l []]),
        some ((p ++ [as.length]).take (p.length + 1 - (m - 1)))⟩ := by
  have hsplit : splitOnce2 (l ++ List.replicate m ')') = none :=
    splitOnce2_none (chunk_no_space m hl)
  have hne : (l ++ List.replicate m ')' : Str) ≠ [] := by
    have := (goodLabel_props hl).1
    cases l with
    | nil => exact absurd rfl this
    | cons c l => simp
  have htl := trim_chunk m hl
  obtain ⟨h1, h2, h3⟩ := ne_root_forms (chunk_no_open m hl)
  have hcount := count_chunk m hl
  have hsv : splitSpace (trimMatches ')' (l ++ List.replicate m ')')) = [l] := by
    rw [trimMatches_chunk m hl]
    exact splitSpace_single (label_no_space hl)
  have hins := insertAt_eq p T (.node l []) hfoc
  have hcc : childCount T p = as.length := childCount_eq hfoc
  have hmpos : 0 < m := by omega
  have hm0 : ¬ m - 1 = 0 := by omega
  have hlen2 : (p ++ [as.length]).length = p.length + 1 := by simp
  have hle : m - 1 ≤ (p ++ [as.length] : List Nat).length := by
    rw [hlen2]; exact hm2
  have htr : trim l = l := trim_label hl
  obtain ⟨f', rfl⟩ : ∃ f', f = f' + 1 := ⟨f - 1, by omega⟩
  simp only [s2tBuildF, hne, if_false, hsplit, htl, h1, h2, h3, or_self,
    or_false, false_or, hcount, gt_iff_lt, hmpos, if_true, hsv,
    List.length_cons, List.length_nil, hm0, hins, hcc, hle, htr, hlen2]
  simp [htr, hins, show m ≤ p.length + 1 + 1 by omega]

theorem fragTail_eq (u : RTree) : ∃ Z, fragTail u = u.label ++ Z := by
  cases u with
  | node lu cus =>
    cases cus with
    | nil => exact ⟨[')'], rfl⟩
    | cons c cs => exact ⟨serFragF (c :: cs) ++ [')'], rfl⟩

theorem goodTree_label {u : RTree} (h : goodTree u = true) :
    goodLabel u.label = true := by
  cases u with
  | node lu cus => exact (goodTree_parts h).1

theorem trim_rest (u : RTree) (us : List RTree) (K : List (List RTree))
    (hu : goodTree u = true) :
    trim (fragTail u ++ (serFragF us ++ ')' :: rem K)) =
      fragTail u ++ (serFragF us ++ ')' :: rem K) := by
  obtain ⟨Z, hZ⟩ := fragTail_eq u
  have hlab := goodTree_label hu
  have hlne := (goodLabel_props hlab).1
  apply trim_eq_self
  · intro c hc
    rw [hZ, List.append_assoc, head?_append_left _ hlne] at hc
    exact goodChar_not_ws ((goodLabel_props hlab).2 _ (mem_of_head? hc))
  · intro c hc
    rw [show fragTail u ++ (serFragF us ++ ')' :: rem K) =
      (fragTail u ++ serFragF us) ++ ')' :: rem K by simp] at hc
    rw [closer_end] at hc
    obtain rfl : ')' = c := by simpa using hc
    rfl

theorem rest_ne_nil (u : RTree) (us : List RTree) (K : List (List RTree)) :
    fragTail u ++ (serFragF us ++ ')' :: rem K) ≠ [] := by
  intro h
  have := congrArg List.length h
  simp at this

/-- The simulation invariant of the whole reparse: with the parser
focused on the node at `p` of the partial tree `T`, consuming the
serialized fragments of `t`, its later siblings `ts`, and the pending
forests `K` of the ancestors (one per level, each closed by `)`)
succeeds and produces `T` with every pending forest appended at its
level. -/
theorem buildMaster : ∀ (n : Nat) (t : RTree) (ts : List RTree)
    (K : List (List RTree)) (T : RTree) (p : List Nat) (f : Nat),
    sizeT t + sizeF ts + sizeK K ≤ n →
    goodTree t = true → goodForest ts = true → goodLevels K = true →
    (getAt T p).isSome = true →
    K.length = p.length →
    (fragTail t ++ (serFragF ts ++ ')' :: rem K)).length < f →
    ∃ q, s2tBuildF f (fragTail t ++ (serFragF ts ++ ')' :: rem K))
        ⟨some T, some p⟩ =
      .ok ⟨some (finalIns T p ((t :: ts) :: K)), q⟩ := by
  intro n
  induction n with
  | zero =>
    intro t ts K T p f hsz _ _ _ _ _ _
    have := sizeT_pos t
    omega
  | succ n ih =>
    intro t ts K T p f hsz hgt hgts hgK hfoc hlen hfuel
    obtain ⟨nf, hnf⟩ := Option.isSome_iff_exists.mp hfoc
    cases nf with
    | node a as =>
    cases f with
    | zero => exact absurd hfuel (Nat.not_lt_zero _)
    | succ f =>
    cases t with
    | node l tcs =>
    obtain ⟨hl, htcs⟩ := goodTree_parts hgt
    cases tcs with
    | cons c cs' =>
      -- inner node: enter it
      obtain ⟨hgc, hgcs'⟩ := goodForest_parts htcs
      have hshape : fragTail (.node l (c :: cs')) ++ (serFragF ts ++ ')' :: rem K) =
          l ++ ' ' :: '(' :: (fragTail c ++ (serFragF cs' ++ ')' :: rem (ts :: K))) := by
        simp [fragTail, serFragF, rem, List.append_assoc]
      rw [hshape] at hfuel ⊢
      have hRtrim := trim_rest c cs' (ts :: K) hgc
      have hRne := rest_ne_nil c cs' (ts :: K)
      rw [eval_label_chunk f l _ T p a as hl hnf hRtrim hRne]
      have hfoc' : getAt (appendForest T p [.node l []]) (p ++ [as.length]) =
          some (.node l []) := getAt_new_child _ hnf
      obtain ⟨q, hrec⟩ := ih c cs' (ts :: K)
        (appendForest T p [.node l []]) (p ++ [as.length]) f
        (by
          simp only [sizeT, sizeF, sizeK] at hsz ⊢
          omega)
        hgc hgcs'
        (by rw [goodLevels]; simp [hgts, hgK])
        (by rw [hfoc']; rfl)
        (by simp [hlen])
        (by
          have := hfuel
          simp only [List.length_append, List.length_cons] at this ⊢
          omega)
      refine ⟨q, ?_⟩
      rw [hrec]
      have e1 : ((p ++ [as.length] : List Nat)).length - 1 = p.length := by simp
      have efin : finalIns (appendForest T p [.node l []]) (p ++ [as.length])
          ((c :: cs') :: ts :: K) =
          finalIns T p ((RTree.node l (c :: cs') :: ts) :: K) := by
        rw [finalIns, e1, List.take_left]
        rw [appendForest_child p T a as l [] (c :: cs') hnf]
        rw [List.nil_append]
        rw [finalIns, finalIns]
        rw [appendForest_append p T [RTree.node l (c :: cs')] ts hnf]
        rfl
      rw [efin]
    | nil =>
      cases ts with
      | cons u us =>
        -- leaf followed by a sibling
        obtain ⟨hgu, hgus⟩ := goodForest_parts hgts
        have hshape : fragTail (.node l []) ++ (serFragF (u :: us) ++ ')' :: rem K) =
            (l ++ List.replicate 1 ')') ++ ' ' :: '(' ::
              (fragTail u ++ (serFragF us ++ ')' :: rem K)) := by
          simp [fragTail, serFragF, List.append_assoc]
        rw [hshape] at hfuel ⊢
        have hRtrim := trim_rest u us K hgu
        have hRne := rest_ne_nil u us K
        rw [eval_leaf_chunk f l _ 1 T p a as hl hnf hRtrim hRne (by omega) (by omega)]
        have htake : (p ++ [as.length] : List Nat).take (p.length + 1 - 1) = p := by
          rw [show p.length + 1 - 1 = p.length by omega]
          exact List.take_left p [as.length]
        rw [htake]
        have hfoc' : getAt (appendForest T p [.node l []]) p =
            some (.node a (as ++ [.node l []])) :=
          getAt_appendForest_self p T a as [.node l []] hnf
        obtain ⟨q, hrec⟩ := ih u us K (appendForest T p [.node l []]) p f
          (by
            simp only [sizeT, sizeF, sizeK] at hsz ⊢
            omega)
          hgu hgus hgK
          (by rw [hfoc']; rfl)
          hlen
          (by
            have := hfuel
            simp only [List.length_append, List.length_cons,
              List.length_replicate] at this ⊢
            omega)
        refine ⟨q, ?_⟩
        rw [hrec]
        have efin : finalIns (appendForest T p [.node l []]) p ((u :: us) :: K) =
            finalIns T p ((RTree.node l [] :: u :: us) :: K) := by
          rw [finalIns, finalIns]
          rw [appendForest_append p T [RTree.node l []] (u :: us) hnf]
          rfl
        rw [efin]
      | nil =>
        -- leaf that closes its level: pop the closed ancestors
        obtain ⟨e, K', hKeq, halt⟩ := popLevels K
        rcases halt with rfl | ⟨u, us, K'', rfl⟩
        · -- everything closes: final chunk
          rw [List.append_nil] at hKeq
          subst hKeq
          have hplen : p.length = e := by
            rw [← hlen]
            simp
          have hshape : fragTail (.node l []) ++ (serFragF [] ++ ')' ::
              rem (List.replicate e [])) = l ++ List.replicate (e + 2) ')' := by
            rw [show rem (List.replicate e []) =
              List.replicate e ')' from by
                have := rem_replicate_append e []
                simpa [rem] using this]
            simp [fragTail, serFragF, List.replicate_succ]
          rw [hshape] at hfuel ⊢
          have hf1 : 1 ≤ f := by
            simp only [List.length_append, List.length_replicate] at hfuel
            omega
          have efin : finalIns T p ((RTree.node l [] :: []) :: List.replicate e []) =
              appendForest T p [RTree.node l []] := by
            rw [finalIns]
            exact finalIns_replicate e _ _
          rw [eval_final_chunk f l (e + 2) T p a as hl hnf (by omega)
            (by omega) hf1, efin]
          exact ⟨_, rfl⟩
        · -- the closers cross `e` empty levels to the next sibling forest
          subst hKeq
          have hgK' : goodLevels ((u :: us) :: K'') = true :=
            goodLevels_replicate_append hgK
          obtain ⟨hguus, hgK''⟩ := goodLevels_parts hgK'
          obtain ⟨hgu, hgus⟩ := goodForest_parts hguus
          have hplen : p.length = e + 1 + K''.length := by
            have hll := hlen
            simp only [List.length_append, List.length_replicate,
              List.length_cons] at hll
            omega
          have hshape : fragTail (.node l []) ++ (serFragF [] ++ ')' ::
              rem (List.replicate e [] ++ (u :: us) :: K'')) =
              (l ++ List.replicate (e + 2) ')') ++ ' ' :: '(' ::
                (fragTail u ++ (serFragF us ++ ')' :: rem K'')) := by
            rw [rem_replicate_append]
            rw [show List.replicate (e + 2) ')' = ')' :: ')' :: List.replicate e ')' from by
              simp [List.replicate_succ]]
            simp [fragTail, serFragF, rem, List.append_assoc]
          rw [hshape] at hfuel ⊢
          have hRtrim := trim_rest u us K'' hgu
          have hRne := rest_ne_nil u us K''
          rw [eval_leaf_chunk f l _ (e + 2) T p a as hl hnf hRtrim hRne
            (by omega) (by omega)]
          have htake : (p ++ [as.length] : List Nat).take (p.length + 1 - (e + 2)) =
              p.take (p.length - (e + 1)) := by
            rw [show p.length + 1 - (e + 2) = p.length - (e + 1) by omega]
            exact List.take_append_of_le_length (by omega)
          rw [htake]
          have hfoc' : (getAt (appendForest T p [.node l []])
              (p.take (p.length - (e + 1)))).isSome = true :=
            getAt_appendForest_prefix _ p T [.node l []]
              (List.take_prefix _ p) (getAt_take_isSome hnf _)
          obtain ⟨q, hrec⟩ := ih u us K'' (appendForest T p [.node l []])
            (p.take (p.length - (e + 1))) f
            (by
              have hsk := sizeK_replicate_append e ((u :: us) :: K'')
              simp only [sizeT, sizeF, sizeK] at hsz hsk ⊢
              omega)
            hgu hgus hgK''
            hfoc'
            (by
              rw [List.length_take]
              omega)
            (by
              have := hfuel
              simp only [List.length_append, List.length_cons,
                List.length_replicate] at this ⊢
              omega)
          refine ⟨q, ?_⟩
          rw [hrec]
          have efin : finalIns (appendForest T p [.node l []])
              (p.take (p.length - (e + 1))) ((u :: us) :: K'') =
              finalIns T p ((RTree.node l [] :: []) ::
                (List.replicate e [] ++ (u :: us) :: K'')) := by
            rw [show finalIns T p ((RTree.node l [] :: []) ::
                (List.replicate e [] ++ (u :: us) :: K'')) =
              finalIns (appendForest T p [RTree.node l []])
                (p.take (p.length - 1))
                (List.replicate e [] ++ (u :: us) :: K'') from rfl]
            rw [finalIns_replicate_append e]
            congr 1
            rw [List.take_take, List.length_take]
            congr 1
            omega
          rw [efin]

/-- Consuming the root chunk `"(S"` (followed by a `" ("` delimiter):
`insert(_, AsRoot)` on the fresh state creates the `S` root and focuses
it. -/
theorem eval_root_chunk (f : Nat) (R : Str) (hR : trim R = R) :
    s2tBuildF (f + 1) (str "(S" ++ ' ' :: '(' :: R) ⟨none, none⟩ =
      s2tBuildF f R ⟨some (.node (str "S") []), some []⟩ := by
  have hsplit : splitOnce2 (str "(S" ++ ' ' :: '(' :: R) = some (str "(S", R) :=
    splitOnce2_append R (by decide)
  have hne : (str "(S" ++ ' ' :: '(' :: R : Str) ≠ [] := by simp [str]
  have htl : trim (str "(S") = str "(S" := by decide
  simp only [s2tBuildF, hne, if_false, hsplit, htl, hR]
  simp

/-- Re-parsing the singular-mode serialization of any good tree whose
root is labeled `S` rebuilds exactly that tree. -/
theorem string2tree_of_ser (t : RTree) (hgood : goodTree t = true)
    (hroot : t.label = str "S") :
    ∃ q, string2treeBuild (tree2string t) = .ok ⟨some t, q⟩ := by
  cases t with
  | node l cs =>
    have hl : l = str "S" := hroot
    subst hl
    cases cs with
    | nil => exact ⟨some [], rfl⟩
    | cons c cs' =>
      have hgf : goodForest (c :: cs') = true := (goodTree_parts hgood).2
      obtain ⟨hgc, hgcs⟩ := goodForest_parts hgf
      have hshape : tree2string (.node (str "S") (c :: cs')) =
          str "(S" ++ ' ' :: '(' ::
            (fragTail c ++ (serFragF cs' ++ ')' :: rem [])) := by
        rw [tree2string_node]
        simp [str, serFragF, rem, List.append_assoc]
      rw [hshape, string2treeBuild]
      have hRtrim : trim (fragTail c ++ (serFragF cs' ++ ')' :: rem [])) =
          fragTail c ++ (serFragF cs' ++ ')' :: rem []) := trim_rest c cs' [] hgc
      have hflen : (str "(S" ++ ' ' :: '(' ::
          (fragTail c ++ (serFragF cs' ++ ')' :: rem [])) : Str).length + 1 =
          ((fragTail c ++ (serFragF cs' ++ ')' :: rem [])).length + 4) + 1 := by
        simp [str]
      rw [hflen, eval_root_chunk _ _ hRtrim]
      obtain ⟨q, hq⟩ := buildMaster (sizeT c + sizeF cs' + sizeK []) c cs' []
        (.node (str "S") []) []
        ((fragTail c ++ (serFragF cs' ++ ')' :: rem ([] : List (List RTree)))).length + 4)
        (Nat.le_refl _) hgc hgcs rfl rfl rfl (by omega)
      exact ⟨q, hq.trans (by rfl)⟩

/-- `Tree2String` applied to the result of `String2Tree::build`:
serialize the parsed tree in singular mode. `get_root_element` fails
with "tree is empty" when the parser produced no tree. -/
def treeRoundtrip (s : Str) : Except Str Str :=
  match string2treeBuild s with
  | .ok st =>
    match st.tree with
    | some t => .ok (tree2string t)
    | none => .error (str "tree is empty")
  | .error e => .error e

/-- C2: For every canonical single-leaf bracketed string whose root
label is `S` — i.e. the singular serialization `tree2string t` of any
good tree `t` with root label `S` — parsing with `String2Tree::build`
and re-serializing with `Tree2String` returns the string unchanged;
the documented double-leaf example re-serializes in singular form
(each leaf acquires its own bracket pair) and only the inverse
reconstruction mode of `get_constituency` restores the original. -/
theorem tree_roundtrip (t : RTree) (hgood : goodTree t = true)
    (hroot : t.label = str "S") :
    treeRoundtrip (tree2string t) = .ok (tree2string t) ∧
    treeRoundtrip
        (str "(S (NP (det The) (N people)) (VP (V watch) (NP (det the) (N game))))") =
      .ok (str "(S (NP (det (The)) (N (people))) (VP (V (watch)) (NP (det (the)) (N (game)))))") ∧
    inverseConstituency
        (str "(S (NP (det (The)) (N (people))) (VP (V (watch)) (NP (det (the)) (N (game)))))") =
      str "(S (NP (det The) (N people)) (VP (V watch) (NP (det the) (N game))))" := by
  refine ⟨?_, rfl, rfl⟩
  obtain ⟨q, hq⟩ := string2tree_of_ser t hgood hroot
  simp only [treeRoundtrip, hq]

/-- Witness for C2: the round trip on the concrete single-leaf
`S`-rooted string `"(S (9 (3) (3)) (4 (2) (2)))"`. -/
theorem tree_roundtrip_witness :
    treeRoundtrip (str "(S (9 (3) (3)) (4 (2) (2)))") =
      .ok (str "(S (9 (3) (3)) (4 (2) (2)))") := by
  have h := tree_roundtrip
    (.node (str "S") [.node (str "9") [.node (str "3") [], .node (str "3") []],
      .node (str "4") [.node (str "2") [], .node (str "2") []]])
    (by decide) (by decide)
  exact h.1

/-- Counterexample to C2 as stated: the repository's own "single-leaf"
test string `"(36 (9 (3) (3)) (4 (2) (2)))"` — a valid single-leaf
bracketed string, the serialization of a good tree rooted at `36` —
does not round-trip: the parser accepts only roots spelled `(S`, so it
fails with "The input did not start with root". -/
theorem tree_roundtrip_counterexample :
    tree2string
        (.node (str "36") [.node (str "9") [.node (str "3") [], .node (str "3") []],
          .node (str "4") [.node (str "2") [], .node (str "2") []]]) =
      str "(36 (9 (3) (3)) (4 (2) (2)))" ∧
    treeRoundtrip (str "(36 (9 (3) (3)) (4 (2) (2)))") =
      .error (str "The input did not start with root") :=
  ⟨rfl, rfl⟩

end PTP
